import Mathlib

/-!
# Verification of the JSpeak streaming speech service core

Shallow embedding of the per-session streaming engine of
`Python/jsp_speech_service.py`: the diff engine, partial-prefix stabilizer,
energy-VAD endpoint detector, frame segmentation, finalized-text normalizer,
command interpreter, and the `stream_push` / `stream_finalize` request
handlers.

Python strings are modelled as Lean `String` (a string is its list of
code points, `String.data`); Python slices/indices operate on code points,
matching `List Char` positions.  Python non-negative ints are `Nat`.
`int(x)` applied to a non-negative float product such as
`sample_rate * (frame_ms / 1000.0)` is modelled as exact rational
truncation, i.e. `Nat` floor division.  The external transcription engine
(`WhisperEngine.transcribe`) is a parameter `List Sample → Except String
String`: `.error` models a raised exception, `.ok` a returned text.  The
energy VAD's frame classification (`EnergyVAD.is_speech`, an RMS test over
float samples) is a parameter `List Sample → Bool`.
-/

namespace JSpeak

/-! ## Character classes (regex character sets of the source) -/

/-- `[一-鿿]` — the CJK-ideograph class used by
`_normalize_mixed_spacing`, `_apply_tone_punctuation` and
`_maybe_insert_cn_comma`. -/
def isCjk (c : Char) : Bool :=
  0x4e00 ≤ c.toNat ∧ c.toNat ≤ 0x9fff

/-- `[A-Za-z0-9]` — the Latin letter/digit class of `_RE_CJK_ASCII` /
`_RE_ASCII_CJK`. -/
def isAsciiAlnum (c : Char) : Bool :=
  (65 ≤ c.toNat ∧ c.toNat ≤ 90) ∨ (97 ≤ c.toNat ∧ c.toNat ≤ 122) ∨
  (48 ≤ c.toNat ∧ c.toNat ≤ 57)

/-- Whitespace stripped by Python `str.strip()` / matched by `\s`
(ASCII whitespace plus the NBSP and the ideographic space, which are the
whitespace code points this program can actually encounter). -/
def isPyWs (c : Char) : Bool :=
  c = ' ' ∨ c = '\t' ∨ c = '\n' ∨ c = '\r' ∨ c = '\x0b' ∨ c = '\x0c' ∨
  c = ' ' ∨ c = '　'

/-- `[\.!\?。！？…]` — the sentence-ending punctuation
class of `_RE_END_PUNCT` / `_RE_TRAILING_PUNCT`. -/
def isEndPunct (c : Char) : Bool :=
  c = '.' ∨ c = '!' ∨ c = '?' ∨ c = '。' ∨ c = '！' ∨ c = '？' ∨ c = '…'

/-- `[，,]` — `_RE_CN_COMMA`. -/
def isCnComma (c : Char) : Bool :=
  c = '，' ∨ c = ','

/-- Word characters for the `\b` boundary in the English question regex
(`re` `\w`: alphanumerics and underscore; of the non-ASCII word characters
only the CJK ideographs occur in this program's data). -/
def isWordChar (c : Char) : Bool :=
  isAsciiAlnum c ∨ c = '_' ∨ isCjk c

/-! ## List-level string utilities -/

/-- Drop the trailing run of characters satisfying `p`
(models `re.sub(r"[...]+$", "", t)` for a character class `p`). -/
def dropTrailWhile (p : Char → Bool) (l : List Char) : List Char :=
  (l.reverse.dropWhile p).reverse

/-- Python `str.strip()` on the code-point list. -/
def stripL (l : List Char) : List Char :=
  dropTrailWhile isPyWs (l.dropWhile isPyWs)

/-- Python `str.strip()`. -/
def pyStrip (s : String) : String := ⟨stripL s.data⟩

/-- Python `str.lower()` (ASCII case mapping; the only cased characters in
the source's tables are ASCII). -/
def pyLowerChar (c : Char) : Char :=
  if 'A' ≤ c ∧ c ≤ 'Z' then Char.ofNat (c.toNat + 32) else c

/-- Python `str.lower()`. -/
def pyLower (s : String) : String := ⟨s.data.map pyLowerChar⟩

/-- Python slice `s[:n]`. -/
def pyTake (s : String) (n : Nat) : String := ⟨s.data.take n⟩

/-- Python slice `s[n:]`. -/
def pyDrop (s : String) (n : Nat) : String := ⟨s.data.drop n⟩

/-- Python `len(s)` (number of code points). -/
def pyLen (s : String) : Nat := s.data.length

/-- Python `a.startswith(b)`. -/
def pyStartsWith (s pre : String) : Bool := pre.data.isPrefixOf s.data

/-! ## 4.4 Diff Engine — `_common_prefix_len` and the delta construction -/

/-- `_common_prefix_len`'s loop on the code-point lists:
`while i < n and a[i] == b[i]: i += 1`. -/
def commonPrefixLenL : List Char → List Char → Nat
  | a :: as, b :: bs => if a = b then commonPrefixLenL as bs + 1 else 0
  | _, _ => 0

/-- `_common_prefix_len(a, b)`. -/
def commonPrefixLen (a b : String) : Nat :=
  commonPrefixLenL a.data b.data

/-- The delta emitted by `Service.handle` (`stream_push`, lines 691–694 and
720–723): `delta_from = cpl`, `delta_delete = len(prev) - cpl`,
`delta_insert = full_text[cpl:]`. -/
def diffDelta (prev next : String) : Nat × Nat × String :=
  let cpl := commonPrefixLen prev next
  (cpl, pyLen prev - cpl, pyDrop next cpl)

theorem commonPrefixLenL_le_left : ∀ a b : List Char, commonPrefixLenL a b ≤ a.length := by
  intro a
  induction a with
  | nil => intro b; cases b <;> simp [commonPrefixLenL]
  | cons x xs ih =>
    intro b
    cases b with
    | nil => simp [commonPrefixLenL]
    | cons y ys =>
      by_cases h : x = y <;> simp [commonPrefixLenL, h]
      exact ih ys

theorem commonPrefixLenL_take : ∀ a b : List Char,
    a.take (commonPrefixLenL a b) = b.take (commonPrefixLenL a b) := by
  intro a
  induction a with
  | nil => intro b; cases b <;> simp [commonPrefixLenL]
  | cons x xs ih =>
    intro b
    cases b with
    | nil => simp [commonPrefixLenL]
    | cons y ys =>
      by_cases h : x = y
      · simp [commonPrefixLenL, h, List.take_succ_cons, ih ys]
      · simp [commonPrefixLenL, h]

theorem commonPrefixLenL_longest : ∀ (a b : List Char) (k : Nat),
    k ≤ min a.length b.length → a.take k = b.take k →
    k ≤ commonPrefixLenL a b := by
  intro a
  induction a with
  | nil =>
    intro b k hk _
    simp at hk
    omega
  | cons x xs ih =>
    intro b k hk htake
    cases b with
    | nil =>
      simp at hk
      omega
    | cons y ys =>
      cases k with
      | zero => omega
      | succ m =>
        simp only [List.take_succ_cons, List.cons.injEq] at htake
        unfold commonPrefixLenL
        rw [if_pos htake.1]
        have := ih ys m (by simp at hk ⊢; omega) htake.2
        omega

/-- C1. Diff reconstruction law: the delta `(from, delete, insert)` of
`stream_push` satisfies `from = cpl`, `delete = len(prev) - cpl`,
`insert = next[cpl:]` where `cpl` is the longest common prefix length
(no longer common prefix exists), and `prev[:from] + insert == next`. -/
theorem diff_reconstruction_law (prev next : String) :
    diffDelta prev next =
      (commonPrefixLen prev next, pyLen prev - commonPrefixLen prev next,
        pyDrop next (commonPrefixLen prev next)) ∧
    (∀ k, k ≤ min (pyLen prev) (pyLen next) →
      pyTake prev k = pyTake next k → k ≤ (diffDelta prev next).1) ∧
    pyTake prev (diffDelta prev next).1 ++ (diffDelta prev next).2.2 = next := by
  refine ⟨rfl, ?_, ?_⟩
  · intro k hk htake
    refine commonPrefixLenL_longest prev.data next.data k hk ?_
    have := congrArg String.data htake
    exact this
  show (⟨prev.data.take (commonPrefixLenL prev.data next.data)⟩ : String) ++
      ⟨next.data.drop (commonPrefixLenL prev.data next.data)⟩ = next
  have h := commonPrefixLenL_take prev.data next.data
  apply String.ext
  show prev.data.take (commonPrefixLenL prev.data next.data) ++
      next.data.drop (commonPrefixLenL prev.data next.data) = next.data
  rw [h, List.take_append_drop]

/-- Witness for C1 at `prev = "ab"`, `next = "ac"`: the delta is
`(1, 1, "c")`, `k = 1` is the longest common prefix, and the
reconstruction law holds there. -/
theorem diff_reconstruction_law_witness :
    1 ≤ (diffDelta "ab" "ac").1 ∧
    pyTake "ab" (diffDelta "ab" "ac").1 ++ (diffDelta "ab" "ac").2.2 = "ac" :=
  ⟨(diff_reconstruction_law "ab" "ac").2.1 1 (by decide) (by decide),
    (diff_reconstruction_law "ab" "ac").2.2⟩

/-! ## 4.3 Partial Stabilizer — `_boundary_prefix` and the prefix lock -/

/-- The boundary-character set of `_boundary_prefix` (space / newline /
sentence- and clause-punctuation, ASCII and full-width). -/
def isBoundaryChar (c : Char) : Bool :=
  c = ' ' ∨ c = '\t' ∨ c = '\n' ∨ c = '\r' ∨
  c = ',' ∨ c = '.' ∨ c = '!' ∨ c = '?' ∨ c = ';' ∨ c = ':' ∨
  c = '，' ∨ c = '。' ∨ c = '！' ∨ c = '？' ∨ c = '；' ∨ c = '：'

/-- `_boundary_prefix`: scanning from the end, return `text[:i+1]` for the
last boundary character at index `i`, or `""` when there is none — i.e.
drop the trailing run of non-boundary characters. -/
def boundaryPrefix (s : String) : String :=
  ⟨dropTrailWhile (fun c => !isBoundaryChar c) s.data⟩

/-- Audio samples (the service's float32 PCM samples; their arithmetic is
never needed by the claims, only their count and the VAD's per-frame
verdict, so an abstract carrier suffices). -/
abbrev Sample := Int

/-- `StreamSession` (the dataclass): per-session mutable state.  The
`language` / `prompt` / `created_at` fields are omitted: the transcription
engine parameter closes over them and no claim mentions them. -/
structure StreamSession where
  sampleRateHz : Nat
  bufferF32 : List Sample := []
  speechFrames : Nat := 0
  silenceFrames : Nat := 0
  lastEmittedText : String := ""
  segmentsText : String := ""
  partialIntervalMs : Nat := 500
  maxPartialContextS : Nat := 20
  minPartialSpeechMs : Nat := 300
  lastPartialSamples : Nat := 0
  committedPrefix : String := ""
  lastPrefixCandidate : String := ""
  prefixStreak : Nat := 0
  frameMs : Nat := 30
  endSilenceMs : Nat := 450
deriving DecidableEq, Repr

/-- `StreamSession.reset_current_utterance`. -/
def resetCurrentUtterance (s : StreamSession) : StreamSession :=
  { s with bufferF32 := [], speechFrames := 0, silenceFrames := 0,
           lastEmittedText := "", lastPartialSamples := 0,
           committedPrefix := "", lastPrefixCandidate := "",
           prefixStreak := 0 }

/-- The per-partial response fields set by the `if text:` stabilization
block of `stream_push` (lines 671–699). -/
structure PartialEmit where
  stablePrefix : String := ""
  unstableSuffix : String := ""
  deltaFrom : Nat := 0
  deltaDelete : Nat := 0
  deltaInsert : String := ""
  emittedText : String := ""
  kind : String := "none"
deriving DecidableEq, Repr

/-- The `last_prefix_candidate` assignment of lines 673–676. -/
def lastCandUpdate (sess : StreamSession) (candidate : String) : String :=
  if candidate ≠ "" ∧ candidate = sess.lastPrefixCandidate then
    sess.lastPrefixCandidate
  else candidate

/-- The `prefix_streak` assignment of lines 673–677. -/
def streakUpdate (sess : StreamSession) (candidate : String) : Nat :=
  if candidate ≠ "" ∧ candidate = sess.lastPrefixCandidate then
    sess.prefixStreak + 1
  else if candidate ≠ "" then 1 else 0

/-- Lines 679–684: lock the candidate in as the new committed prefix only
when the streak reached 2 and the candidate strictly extends the current
committed prefix (monotonic growth only). -/
def committedUpdate (sess : StreamSession) (candidate : String) : String :=
  if candidate ≠ "" ∧ streakUpdate sess candidate ≥ 2 ∧
      pyLen sess.committedPrefix < pyLen candidate ∧
      pyStartsWith candidate sess.committedPrefix then
    candidate
  else
    sess.committedPrefix

/-- Lines 671–699 of `Service.handle` (`stream_push`): the body of
`if text:` after a partial transcription returned `text` — candidate
debouncing, monotonic commit, emission and delta computation. -/
def partialStabilize (sess : StreamSession) (text : String) :
    StreamSession × PartialEmit :=
  let candidate := boundaryPrefix text
  let lastCand := lastCandUpdate sess candidate
  let streak := streakUpdate sess candidate
  let committed := committedUpdate sess candidate
  let stablePrefix := committed
  let unstableSuffix := pyDrop text (pyLen stablePrefix)
  let fullText := stablePrefix ++ unstableSuffix
  let prev := sess.lastEmittedText
  let cpl := commonPrefixLen prev fullText
  let emitted := if fullText ≠ prev then fullText else ""
  let lastEmitted := if fullText ≠ prev then fullText else prev
  let kind := if fullText ≠ prev then "partial" else "none"
  ({ sess with lastPrefixCandidate := lastCand, prefixStreak := streak,
               committedPrefix := committed, lastEmittedText := lastEmitted },
   { stablePrefix := stablePrefix, unstableSuffix := unstableSuffix,
     deltaFrom := cpl, deltaDelete := pyLen prev - cpl,
     deltaInsert := pyDrop fullText cpl,
     emittedText := emitted, kind := kind })

/-- One partial-emission round at the session level: the stabilization
block runs only when the transcription returned non-empty text
(`if text:`); an empty hypothesis leaves the stabilization state alone. -/
def stabilizeStep (sess : StreamSession) (text : String) : StreamSession :=
  if text = "" then sess else (partialStabilize sess text).1

theorem committedPrefix_stabilizeStep_cases (sess : StreamSession) (text : String) :
    (stabilizeStep sess text).committedPrefix = sess.committedPrefix ∨
      ((stabilizeStep sess text).committedPrefix = boundaryPrefix text ∧
        sess.committedPrefix.data <+: (stabilizeStep sess text).committedPrefix.data ∧
        pyLen sess.committedPrefix < pyLen (stabilizeStep sess text).committedPrefix) := by
  unfold stabilizeStep partialStabilize
  by_cases h0 : text = ""
  · simp [h0]
  · simp only [if_neg h0]
    show committedUpdate sess (boundaryPrefix text) = sess.committedPrefix ∨ _
    unfold committedUpdate
    split
    · next hg =>
      exact Or.inr ⟨rfl, List.isPrefixOf_iff_prefix.mp hg.2.2.2, hg.2.2.1⟩
    · exact Or.inl rfl

theorem committedPrefix_prefix_stabilizeStep (sess : StreamSession) (text : String) :
    sess.committedPrefix.data <+: (stabilizeStep sess text).committedPrefix.data := by
  rcases committedPrefix_stabilizeStep_cases sess text with h | h
  · rw [h]
  · exact h.2.1

theorem lastEmitted_stabilizeStep (sess : StreamSession) (text : String)
    (h : text ≠ "") :
    (stabilizeStep sess text).lastEmittedText =
      (stabilizeStep sess text).committedPrefix ++
        pyDrop text (pyLen (stabilizeStep sess text).committedPrefix) := by
  unfold stabilizeStep partialStabilize
  simp only [if_neg h]
  show (if committedUpdate sess (boundaryPrefix text) ++
        pyDrop text (pyLen (committedUpdate sess (boundaryPrefix text))) ≠
        sess.lastEmittedText then _ else sess.lastEmittedText) = _
  split
  · rfl
  · next he =>
    simp only [ne_eq, not_not] at he
    exact he.symm

/-- C2. Prefix monotonicity: (a) one stabilization round only ever extends
the committed prefix — either it is unchanged, or it is replaced by the
boundary candidate, which then has the old committed prefix as a strict
literal prefix (a non-extension candidate never overwrites it); (b) hence
the committed prefix of any earlier state is a literal prefix of the
committed prefix after any further rounds (its length never decreases);
(c) across any sequence of rounds within one utterance, the committed
prefix is always a literal prefix of the most recently emitted text. -/
theorem prefix_monotonicity :
    (∀ (sess : StreamSession) (text : String),
      (stabilizeStep sess text).committedPrefix = sess.committedPrefix ∨
        ((stabilizeStep sess text).committedPrefix = boundaryPrefix text ∧
          sess.committedPrefix.data <+: (stabilizeStep sess text).committedPrefix.data ∧
          pyLen sess.committedPrefix < pyLen (stabilizeStep sess text).committedPrefix)) ∧
    (∀ (sess : StreamSession) (texts : List String),
      sess.committedPrefix.data <+:
        (texts.foldl stabilizeStep sess).committedPrefix.data ∧
      pyLen sess.committedPrefix ≤
        pyLen (texts.foldl stabilizeStep sess).committedPrefix) ∧
    (∀ (sess : StreamSession) (texts : List String),
      sess.committedPrefix.data <+: sess.lastEmittedText.data →
      (texts.foldl stabilizeStep sess).committedPrefix.data <+:
        (texts.foldl stabilizeStep sess).lastEmittedText.data) := by
  have hfold : ∀ (texts : List String) (sess : StreamSession),
      sess.committedPrefix.data <+:
        (texts.foldl stabilizeStep sess).committedPrefix.data := by
    intro texts
    induction texts with
    | nil => intro sess; simp
    | cons t ts ih =>
      intro sess
      simp only [List.foldl_cons]
      exact (committedPrefix_prefix_stabilizeStep sess t).trans (ih (stabilizeStep sess t))
  have hinv : ∀ (texts : List String) (sess : StreamSession),
      sess.committedPrefix.data <+: sess.lastEmittedText.data →
      (texts.foldl stabilizeStep sess).committedPrefix.data <+:
        (texts.foldl stabilizeStep sess).lastEmittedText.data := by
    intro texts
    induction texts with
    | nil => intro sess h; simpa using h
    | cons t ts ih =>
      intro sess h
      simp only [List.foldl_cons]
      refine ih (stabilizeStep sess t) ?_
      by_cases ht : t = ""
      · simpa [stabilizeStep, ht] using h
      · rw [lastEmitted_stabilizeStep sess t ht]
        simp only [String.data_append]
        exact List.prefix_append _ _
  refine ⟨committedPrefix_stabilizeStep_cases, fun sess texts => ⟨hfold texts sess, ?_⟩,
    fun sess texts => hinv texts sess⟩
  exact List.IsPrefix.length_le (hfold texts sess)

/-- Witness for C2 at a concrete run: the utterance starts with committed
prefix `""` (a prefix of the initial empty emitted text), and after the
hypothesis stream `["你好，世界", "你好，世界"]` the committed prefix
is still a literal prefix of the last emitted text. -/
theorem prefix_monotonicity_witness :
    (["你好，世界", "你好，世界"].foldl stabilizeStep
        { sampleRateHz := 16000 }).committedPrefix.data <+:
      (["你好，世界", "你好，世界"].foldl stabilizeStep
        { sampleRateHz := 16000 }).lastEmittedText.data :=
  prefix_monotonicity.2.2 { sampleRateHz := 16000 } ["你好，世界", "你好，世界"]
    (by decide)

/-! ## 4.2 Endpoint Detector — the frame loop of `StreamSession.push_audio`
(lines 390–404) -/

/-- One iteration of the per-frame loop: a speech frame increments
`speech_frames` and zeroes `silence_frames`; a silence frame increments
`silence_frames` and declares an endpoint for the push once some speech
has been seen and `silence_frames * frame_ms >= end_silence_ms`.
State: `(endpoint, speech_frames, silence_frames)`. -/
def endpointStep (frameMs endSilenceMs : Nat) (st : Bool × Nat × Nat)
    (isSpeechFrame : Bool) : Bool × Nat × Nat :=
  match st with
  | (ep, sp, si) =>
    if isSpeechFrame then (ep, sp + 1, 0)
    else
      (ep || (decide (0 < sp) && decide (endSilenceMs ≤ (si + 1) * frameMs)),
       sp, si + 1)

/-- The whole frame loop over one batch of per-frame speech flags. -/
def processFlags (frameMs endSilenceMs : Nat) (st : Bool × Nat × Nat)
    (flags : List Bool) : Bool × Nat × Nat :=
  flags.foldl (endpointStep frameMs endSilenceMs) st

/-- Observer of the frame loop: the index of the frame on which the
endpoint first gets declared (counters evolve exactly as in
`endpointStep`), or `none` when the loop never declares one. -/
def endpointFireIdx (frameMs endSilenceMs : Nat) :
    Nat × Nat → List Bool → Option Nat
  | _, [] => none
  | (sp, si), flag :: rest =>
    if flag then
      (endpointFireIdx frameMs endSilenceMs (sp + 1, 0) rest).map (· + 1)
    else if 0 < sp ∧ endSilenceMs ≤ (si + 1) * frameMs then some 0
    else (endpointFireIdx frameMs endSilenceMs (sp, si + 1) rest).map (· + 1)

/-- Cumulative trailing silence of a flag sequence: the length of its
maximal all-silence suffix. -/
def trailingSilence (flags : List Bool) : Nat :=
  (flags.reverse.takeWhile (fun b => !b)).length

/-- `⌈s / f⌉` on naturals. -/
def ceilDiv (s f : Nat) : Nat := (s + f - 1) / f

/-- The specification's firing condition at frame `i`: at least one speech
frame among the first `i + 1` frames, and the cumulative trailing silence
there has reached `⌈end_silence_ms / frame_ms⌉` frames. -/
def specFireCond (frameMs endSilenceMs : Nat) (flags : List Bool) (i : Nat) : Bool :=
  (flags.take (i + 1)).any id &&
    decide (ceilDiv endSilenceMs frameMs ≤ trailingSilence (flags.take (i + 1)))

/-- The first frame index satisfying `specFireCond`. -/
def specFireIdx (frameMs endSilenceMs : Nat) (flags : List Bool) : Option Nat :=
  (List.range flags.length).find? (specFireCond frameMs endSilenceMs flags)

theorem ceilDiv_le_iff {f : Nat} (hf : 0 < f) (s n : Nat) :
    ceilDiv s f ≤ n ↔ s ≤ n * f := by
  unfold ceilDiv
  rw [Nat.div_le_iff_le_mul_add_pred hf, Nat.mul_comm]
  omega

theorem find?_congr_pred {α : Type} (p q : α → Bool) (h : ∀ a, p a = q a) :
    ∀ l : List α, l.find? p = l.find? q := by
  intro l
  induction l with
  | nil => rfl
  | cons a as ih => simp [List.find?, h a, ih]

theorem trailingSilence_all {p : List Bool} (h : p.all (fun b => !b)) :
    trailingSilence p = p.length := by
  unfold trailingSilence
  rw [List.takeWhile_eq_self_iff.mpr, List.length_reverse]
  intro a ha
  exact (List.all_eq_true.mp h) a (List.mem_reverse.mp ha)

theorem trailingSilence_cons (b : Bool) (p : List Bool) :
    trailingSilence (b :: p) =
      if p.all (fun x => !x) && !b then p.length + 1 else trailingSilence p := by
  unfold trailingSilence
  rw [List.reverse_cons]
  by_cases hall : p.all (fun x => !x)
  · have hmem : ∀ a ∈ p.reverse, (fun x => !x) a = true := by
      intro a ha
      exact (List.all_eq_true.mp hall) a (List.mem_reverse.mp ha)
    rw [List.takeWhile_append_of_pos hmem]
    cases b
    · simp [List.takeWhile, hall, List.length_reverse]
    · have : List.takeWhile (fun x => !x) p.reverse = p.reverse :=
        List.takeWhile_eq_self_iff.mpr hmem
      simp [List.takeWhile, hall, this, List.length_reverse]
  · have hne : (p.reverse.takeWhile (fun x => !x)).length ≠ p.reverse.length := by
      intro hc
      have := List.Sublist.eq_of_length
        (List.takeWhile_sublist (l := p.reverse) (fun x => !x)) hc
      have hmem := List.takeWhile_eq_self_iff.mp this
      exact hall (List.all_eq_true.mpr
        (fun a ha => hmem a (List.mem_reverse.mpr ha)))
    rw [List.takeWhile_append, if_neg hne]
    simp [hall]

/-- Silence counter after processing `p` from a state whose silence
counter is `si`. -/
def silAfter (si : Nat) (p : List Bool) : Nat :=
  if p.all (fun b => !b) then si + p.length else trailingSilence p

/-- Speech counter after processing `p` from a state whose speech counter
is `sp`. -/
def spAfter (sp : Nat) (p : List Bool) : Nat := sp + p.count true

theorem silAfter_zero (p : List Bool) : silAfter 0 p = trailingSilence p := by
  unfold silAfter
  split
  · next h => simpa using (trailingSilence_all h).symm
  · rfl

theorem silAfter_true_cons (si : Nat) (p : List Bool) :
    silAfter si (true :: p) = trailingSilence p := by
  unfold silAfter
  rw [if_neg (by simp)]
  rw [trailingSilence_cons]
  simp

theorem silAfter_false_cons (si : Nat) (p : List Bool) :
    silAfter si (false :: p) = silAfter (si + 1) p := by
  unfold silAfter
  by_cases h : p.all (fun x => !x)
  · rw [if_pos (by simpa using h), if_pos h]
    simp only [List.length_cons]
    omega
  · rw [if_neg (by simpa using h), if_neg h, trailingSilence_cons, if_neg (by simp [h])]

theorem spAfter_true_cons (sp : Nat) (p : List Bool) :
    spAfter sp (true :: p) = spAfter (sp + 1) p := by
  unfold spAfter
  rw [List.count_cons]
  simp
  omega

theorem spAfter_false_cons (sp : Nat) (p : List Bool) :
    spAfter sp (false :: p) = spAfter sp p := by
  unfold spAfter
  rw [List.count_cons]
  simp

/-- The loop's fire index from an arbitrary counter state `(sp, si)` is
the first frame index at which the counters reconstructed from the prefix
satisfy the endpoint inequality. -/
theorem endpointFireIdx_eq_find (f s : Nat) (hs : 0 < s) :
    ∀ (flags : List Bool) (sp si : Nat),
      endpointFireIdx f s (sp, si) flags =
        (List.range flags.length).find? (fun i =>
          decide (0 < spAfter sp (flags.take (i + 1))) &&
          decide (s ≤ silAfter si (flags.take (i + 1)) * f)) := by
  intro flags
  induction flags with
  | nil => intro sp si; rfl
  | cons flag rest ih =>
    intro sp si
    rw [List.length_cons, List.range_succ_eq_map]
    cases flag
    · by_cases hfire : 0 < sp ∧ s ≤ (si + 1) * f
      · rw [List.find?_cons_of_pos]
        · show endpointFireIdx f s (sp, si) (false :: rest) = some 0
          unfold endpointFireIdx
          rw [if_neg (by simp), if_pos hfire]
        · have h1 : spAfter sp ((false :: rest).take 1) = sp := by
            simp [spAfter]
          have h2 : silAfter si ((false :: rest).take 1) = si + 1 := by
            simp [silAfter, trailingSilence]
          rw [h1, h2]
          simp [hfire.1, hfire.2]
      · rw [List.find?_cons_of_neg]
        · show endpointFireIdx f s (sp, si) (false :: rest) = _
          unfold endpointFireIdx
          rw [if_neg (by simp), if_neg hfire, List.find?_map, ih (sp, si + 1).1 (sp, si + 1).2]
          rw [find?_congr_pred _ (fun i =>
            decide (0 < spAfter sp ((false :: rest).take (Nat.succ i + 1))) &&
            decide (s ≤ silAfter si ((false :: rest).take (Nat.succ i + 1)) * f)) ?_ (List.range rest.length)]
          · rfl
          · intro i
            simp only [List.take_succ_cons, spAfter_false_cons, silAfter_false_cons]
        · have h1 : spAfter sp ((false :: rest).take 1) = sp := by
            simp [spAfter]
          have h2 : silAfter si ((false :: rest).take 1) = si + 1 := by
            simp [silAfter, trailingSilence]
          rw [h1, h2]
          intro hc
          rcases Bool.and_eq_true_iff.mp hc with ⟨hc1, hc2⟩
          exact hfire ⟨of_decide_eq_true hc1, of_decide_eq_true hc2⟩
    · rw [List.find?_cons_of_neg]
      · show endpointFireIdx f s (sp, si) (true :: rest) = _
        unfold endpointFireIdx
        rw [if_pos rfl, List.find?_map, ih (sp + 1, 0).1 (sp + 1, 0).2]
        rw [find?_congr_pred _ (fun i =>
          decide (0 < spAfter sp ((true :: rest).take (Nat.succ i + 1))) &&
          decide (s ≤ silAfter si ((true :: rest).take (Nat.succ i + 1)) * f)) ?_ (List.range rest.length)]
        · rfl
        · intro i
          simp only [List.take_succ_cons, spAfter_true_cons, silAfter_true_cons, silAfter_zero]
      · have h2 : silAfter si ((true :: rest).take 1) = 0 := by
          simp [silAfter, trailingSilence]
        rw [h2]
        simp
        omega

theorem endpointFireIdx_cons_true (f s : Nat) (sp si : Nat) (rest : List Bool) :
    endpointFireIdx f s (sp, si) (true :: rest) =
      (endpointFireIdx f s (sp + 1, 0) rest).map (· + 1) := rfl

theorem endpointFireIdx_cons_false (f s : Nat) (sp si : Nat) (rest : List Bool) :
    endpointFireIdx f s (sp, si) (false :: rest) =
      if 0 < sp ∧ s ≤ (si + 1) * f then some 0
      else (endpointFireIdx f s (sp, si + 1) rest).map (· + 1) := rfl

/-- The endpoint flag of a batch is the old flag or-ed with "the scan
fires somewhere in the batch". -/
theorem processFlags_fst (f s : Nat) :
    ∀ (flags : List Bool) (ep : Bool) (sp si : Nat),
      (processFlags f s (ep, sp, si) flags).1 =
        (ep || (endpointFireIdx f s (sp, si) flags).isSome) := by
  intro flags
  induction flags with
  | nil => intro ep sp si; simp [processFlags, endpointFireIdx]
  | cons flag rest ih =>
    intro ep sp si
    cases flag
    · show (processFlags f s
        (ep || (decide (0 < sp) && decide (s ≤ (si + 1) * f)), sp, si + 1) rest).1 = _
      rw [ih, endpointFireIdx_cons_false]
      by_cases hfire : 0 < sp ∧ s ≤ (si + 1) * f
      · rw [if_pos hfire]
        simp [hfire.1, hfire.2]
      · rw [if_neg hfire]
        have hd : (decide (0 < sp) && decide (s ≤ (si + 1) * f)) = false := by
          rcases Decidable.not_and_iff_or_not.mp hfire with h | h <;> simp [h]
        rw [hd]
        simp
    · show (processFlags f s (ep, sp + 1, 0) rest).1 = _
      rw [ih, endpointFireIdx_cons_true]
      simp

theorem find?_range_first (p : Nat → Bool) :
    ∀ (n i : Nat), (List.range n).find? p = some i → p i = true ∧ ∀ j < i, p j = false := by
  intro n
  induction n with
  | zero => intro i h; simp [List.find?] at h
  | succ n ih =>
    intro i h
    rw [List.range_succ, List.find?_append] at h
    cases hn : (List.range n).find? p with
    | some j =>
      rw [hn] at h
      simp only [Option.or_some] at h
      exact Option.some_inj.mp h ▸ ih j hn
    | none =>
      rw [hn] at h
      simp only [Option.none_or] at h
      have hall := List.find?_eq_none.mp hn
      have hpi : p n = true ∧ n = i := by
        by_cases hp : p n = true
        · refine ⟨hp, ?_⟩
          simp [List.find?, hp] at h
          exact h
        · simp [List.find?, Bool.eq_false_iff.mpr hp] at h
      refine ⟨hpi.2 ▸ hpi.1, ?_⟩
      intro j hj
      have : j ∈ List.range n := List.mem_range.mpr (by omega)
      exact Bool.eq_false_iff.mpr (hall j this)

theorem trailingSilence_append_singleton (p : List Bool) (b : Bool) :
    trailingSilence (p ++ [b]) = if b then 0 else trailingSilence p + 1 := by
  unfold trailingSilence
  rw [List.reverse_append]
  cases b <;> simp [List.takeWhile]

theorem trailingSilence_le_length (p : List Bool) :
    trailingSilence p ≤ p.length := by
  unfold trailingSilence
  calc (p.reverse.takeWhile (fun b => !b)).length
      ≤ p.reverse.length := (List.takeWhile_sublist _).length_le
    _ = p.length := List.length_reverse _

/-- On the frame where the spec condition first holds, the trailing
silence has reached `⌈s/f⌉` exactly (it grows one frame at a time). -/
theorem specFireIdx_exact (f s : Nat) (hf : 0 < f) (hs : 0 < s)
    (flags : List Bool) (i : Nat)
    (h : specFireIdx f s flags = some i) :
    trailingSilence (flags.take (i + 1)) = ceilDiv s f := by
  have hk1 : 1 ≤ ceilDiv s f := by
    rw [show (1 : Nat) = 0 + 1 from rfl, Nat.add_one_le_iff, Nat.lt_iff_add_one_le,
      Nat.add_one_le_iff]
    by_contra hc
    push_neg at hc
    interval_cases hkc : ceilDiv s f
    · have := (ceilDiv_le_iff hf s 0).mp (le_of_eq hkc)
      omega
  obtain ⟨hcond, hmin⟩ := find?_range_first _ _ _ h
  have himem : i ∈ List.range flags.length := List.mem_of_find?_eq_some h
  have hilen : i < flags.length := List.mem_range.mp himem
  unfold specFireCond at hcond
  rcases Bool.and_eq_true_iff.mp hcond with ⟨hany, hge⟩
  have hge' : ceilDiv s f ≤ trailingSilence (flags.take (i + 1)) :=
    of_decide_eq_true hge
  by_contra hne
  have hgt : ceilDiv s f + 1 ≤ trailingSilence (flags.take (i + 1)) := by omega
  have htake : flags.take (i + 1) = flags.take i ++ [flags[i]] := by
    rw [List.take_succ, List.getElem?_eq_getElem hilen]
    rfl
  have hb : flags[i] = false := by
    cases hbv : flags[i] with
    | false => rfl
    | true =>
      rw [htake, hbv, trailingSilence_append_singleton, if_pos rfl] at hgt
      omega
  rw [htake, hb, trailingSilence_append_singleton] at hgt
  simp only [Bool.false_eq_true, if_false] at hgt
  have hrun_prev : ceilDiv s f ≤ trailingSilence (flags.take i) := by omega
  have hpos_prev : 1 ≤ trailingSilence (flags.take i) := le_trans hk1 hrun_prev
  have hi1 : 1 ≤ i := by
    by_contra hc
    push_neg at hc
    interval_cases i
    · simp [trailingSilence] at hpos_prev
  have hany_prev : (flags.take i).any id = true := by
    rw [htake] at hany
    rw [List.any_append] at hany
    rcases Bool.or_eq_true_iff.mp hany with h1 | h1
    · exact h1
    · rw [hb] at h1
      simp [List.any] at h1
  have hcond_prev : specFireCond f s flags (i - 1) = true := by
    unfold specFireCond
    rw [show i - 1 + 1 = i by omega]
    rw [hany_prev]
    simp only [Bool.true_and]
    exact decide_eq_true hrun_prev
  have hfalse := hmin (i - 1) (by omega)
  rw [hcond_prev] at hfalse
  simp at hfalse

theorem any_id_eq_count_pos (p : List Bool) :
    p.any id = decide (0 < p.count true) := by
  induction p with
  | nil => rfl
  | cons b rest ih =>
    cases b <;> simp [List.count_cons, ih]

/-- C3. Endpoint timing: from a fresh utterance state, the frame loop of
`push_audio` declares the endpoint exactly on the first frame at which the
cumulative trailing silence has reached `⌈end_silence_ms / frame_ms⌉`
frames with at least one speech frame counted — never earlier and never
later; on that frame the trailing silence equals the threshold exactly;
the push's endpoint flag is set iff such a frame exists in the processed
sequence; and for frame_ms 30 with end_silence_ms 450 (the 16 kHz
scenario) the threshold is 15 consecutive silent frames after speech. -/
theorem endpoint_timing (f s : Nat) (hf : 0 < f) (hs : 0 < s)
    (flags : List Bool) :
    endpointFireIdx f s (0, 0) flags = specFireIdx f s flags ∧
    (∀ i, specFireIdx f s flags = some i →
      trailingSilence (flags.take (i + 1)) = ceilDiv s f) ∧
    ((processFlags f s (false, 0, 0) flags).1 = (specFireIdx f s flags).isSome) ∧
    ceilDiv 450 30 = 15 ∧
    endpointFireIdx 30 450 (0, 0) (true :: List.replicate 15 false) = some 15 ∧
    endpointFireIdx 30 450 (0, 0) (true :: List.replicate 14 false) = none := by
  have heq : endpointFireIdx f s (0, 0) flags = specFireIdx f s flags := by
    rw [endpointFireIdx_eq_find f s hs flags 0 0]
    unfold specFireIdx
    refine find?_congr_pred _ _ ?_ _
    intro i
    unfold specFireCond
    rw [silAfter_zero]
    congr 1
    · show decide (0 < spAfter 0 (flags.take (i + 1))) = _
      unfold spAfter
      rw [any_id_eq_count_pos]
      simp
    · exact decide_eq_decide.mpr (ceilDiv_le_iff hf s _).symm
  refine ⟨heq, fun i hi => specFireIdx_exact f s hf hs flags i hi, ?_, by decide,
    by decide, by decide⟩
  rw [processFlags_fst, heq]
  simp

/-- Witness for C3 in the spec's concrete scenario: frame 30 ms, silence
threshold 450 ms, one speech frame followed by silence — the endpoint
fires exactly on the 15th consecutive silent frame. -/
theorem endpoint_timing_witness :
    endpointFireIdx 30 450 (0, 0) (true :: List.replicate 15 false) =
      specFireIdx 30 450 (true :: List.replicate 15 false) ∧
    specFireIdx 30 450 (true :: List.replicate 15 false) = some 15 :=
  ⟨(endpoint_timing 30 450 (by decide) (by decide)
      (true :: List.replicate 15 false)).1, by decide⟩

/-- C10. Within a single push batch, the endpoint flag is latched: the
per-frame step never clears it (a later speech frame resets the silence
counter to zero and increments the speech counter while leaving the flag
untouched), processing continues over the remaining frames, and the
counters evolve independently of the endpoint flag. -/
theorem endpoint_latched_within_push (f s : Nat) :
    (∀ (flags : List Bool) (sp si : Nat),
      (processFlags f s (true, sp, si) flags).1 = true) ∧
    (∀ (ep : Bool) (sp si : Nat),
      endpointStep f s (ep, sp, si) true = (ep, sp + 1, 0)) ∧
    (∀ (flags : List Bool) (ep ep' : Bool) (sp si : Nat),
      (processFlags f s (ep, sp, si) flags).2 =
        (processFlags f s (ep', sp, si) flags).2) := by
  refine ⟨?_, fun ep sp si => by simp [endpointStep], ?_⟩
  · intro flags
    induction flags with
    | nil => intro sp si; rfl
    | cons flag rest ih =>
      intro sp si
      cases flag
      · exact ih sp (si + 1)
      · exact ih (sp + 1) 0
  · intro flags
    induction flags with
    | nil => intro ep ep' sp si; rfl
    | cons flag rest ih =>
      intro ep ep' sp si
      cases flag
      · exact ih _ _ sp (si + 1)
      · exact ih _ _ (sp + 1) 0

/-! ## 4.1 Frame Segmenter — `push_audio` (lines 369–404) -/

/-- `int(self.sample_rate_hz * (self.frame_ms / 1000.0))` — truncation of
the product (floor, since both factors are non-negative). -/
def frameLenOf (sampleRateHz frameMs : Nat) : Nat :=
  sampleRateHz * frameMs / 1000

/-- `audio[start:].reshape((n_frames, frame_len))` — split a sample slice
into `n` consecutive frames of `frameLen` samples. -/
def chunksExact (n frameLen : Nat) (l : List Sample) : List (List Sample) :=
  match n with
  | 0 => []
  | n + 1 => l.take frameLen :: chunksExact n frameLen (l.drop frameLen)

/-- `StreamSession.push_audio`: append the chunk to the accumulator,
segment the newly appended samples into whole frames, run the VAD /
endpoint loop over them, and return the endpoint flag together with the
updated session (the returned counters are the updated fields). -/
def pushAudio (vad : List Sample → Bool) (sess : StreamSession)
    (audio : List Sample) : Bool × StreamSession :=
  if audio = [] then (false, sess)
  else
    let sess' := { sess with bufferF32 := sess.bufferF32 ++ audio }
    let frameLen := frameLenOf sess.sampleRateHz sess.frameMs
    if frameLen = 0 then (false, sess')
    else
      let nFrames := audio.length / frameLen
      if nFrames = 0 then (false, sess')
      else
        let start := audio.length - nFrames * frameLen
        let frames := chunksExact nFrames frameLen (audio.drop start)
        let r := processFlags sess.frameMs sess.endSilenceMs
          (false, sess.speechFrames, sess.silenceFrames) (frames.map vad)
        (r.1, { sess' with speechFrames := r.2.1, silenceFrames := r.2.2 })

theorem chunksExact_flatten (frameLen : Nat) :
    ∀ (n : Nat) (l : List Sample), l.length = n * frameLen →
      (chunksExact n frameLen l).flatten = l := by
  intro n
  induction n with
  | zero =>
    intro l hl
    simp only [Nat.zero_mul] at hl
    simp [chunksExact, List.eq_nil_of_length_eq_zero hl]
  | succ n ih =>
    intro l hl
    show (l.take frameLen :: chunksExact n frameLen (l.drop frameLen)).flatten = l
    rw [List.flatten_cons,
      ih (l.drop frameLen) (by rw [List.length_drop, hl, Nat.succ_mul]; omega)]
    exact List.take_append_drop _ _

theorem chunksExact_mem_length (frameLen : Nat) :
    ∀ (n : Nat) (l : List Sample), l.length = n * frameLen →
      ∀ c ∈ chunksExact n frameLen l, c.length = frameLen := by
  intro n
  induction n with
  | zero => intro l hl c hc; simp [chunksExact] at hc
  | succ n ih =>
    intro l hl c hc
    rcases List.mem_cons.mp hc with hc | hc
    · subst hc
      rw [List.length_take]
      have hle : frameLen ≤ l.length := by
        rw [hl]
        calc frameLen = 1 * frameLen := (Nat.one_mul _).symm
          _ ≤ (n + 1) * frameLen := Nat.mul_le_mul_right _ (by omega)
      omega
    · exact ih (l.drop frameLen)
        (by rw [List.length_drop, hl, Nat.succ_mul]; omega) c hc

/-- Modelled from the spec's words for comparison: `round(sample_rate *
frame_ms / 1000)` with Python 3 `round` (half-to-even) on the exact
quotient. -/
def roundFrameLen (sampleRateHz frameMs : Nat) : Nat :=
  let num := sampleRateHz * frameMs
  let q := num / 1000
  let r := num % 1000
  if 2 * r < 1000 then q
  else if 1000 < 2 * r then q + 1
  else if q % 2 = 0 then q else q + 1

/-- C7 (amended: the frame length is the truncation
`⌊sample_rate * frame_ms / 1000⌋`, not a rounding).  Frame segmentation:
with no whole frame available (`frame_len = 0` or fewer new samples than
one frame) the push appends the audio and produces no VAD decision; in
the main case the analysed samples are exactly the maximal whole-frame
suffix of the newly appended chunk — `len % frame_len` leading new
samples are skipped, the rest splits into `len / frame_len` frames of
exactly `frame_len` samples — and the endpoint flag and counters are
computed from those frames and the previous counters alone, never from
the already-buffered samples. -/
theorem frame_segmentation (vad : List Sample → Bool) (sess : StreamSession)
    (audio : List Sample) :
    (audio ≠ [] → frameLenOf sess.sampleRateHz sess.frameMs = 0 →
      pushAudio vad sess audio =
        (false, { sess with bufferF32 := sess.bufferF32 ++ audio })) ∧
    (audio ≠ [] →
      audio.length / frameLenOf sess.sampleRateHz sess.frameMs = 0 →
      frameLenOf sess.sampleRateHz sess.frameMs ≠ 0 →
      pushAudio vad sess audio =
        (false, { sess with bufferF32 := sess.bufferF32 ++ audio })) ∧
    (∀ fl, fl = frameLenOf sess.sampleRateHz sess.frameMs → audio ≠ [] →
      fl ≠ 0 → audio.length / fl ≠ 0 →
      (audio.drop (audio.length % fl)).length = (audio.length / fl) * fl ∧
      (chunksExact (audio.length / fl) fl
          (audio.drop (audio.length % fl))).flatten =
        audio.drop (audio.length % fl) ∧
      (∀ c ∈ chunksExact (audio.length / fl) fl
          (audio.drop (audio.length % fl)), c.length = fl) ∧
      pushAudio vad sess audio =
        ((processFlags sess.frameMs sess.endSilenceMs
            (false, sess.speechFrames, sess.silenceFrames)
            ((chunksExact (audio.length / fl) fl
              (audio.drop (audio.length % fl))).map vad)).1,
         { sess with
            bufferF32 := sess.bufferF32 ++ audio,
            speechFrames := (processFlags sess.frameMs sess.endSilenceMs
              (false, sess.speechFrames, sess.silenceFrames)
              ((chunksExact (audio.length / fl) fl
                (audio.drop (audio.length % fl))).map vad)).2.1,
            silenceFrames := (processFlags sess.frameMs sess.endSilenceMs
              (false, sess.speechFrames, sess.silenceFrames)
              ((chunksExact (audio.length / fl) fl
                (audio.drop (audio.length % fl))).map vad)).2.2 })) ∧
    (∀ b : List Sample,
      (pushAudio vad { sess with bufferF32 := b } audio).1 =
        (pushAudio vad sess audio).1 ∧
      (pushAudio vad { sess with bufferF32 := b } audio).2.speechFrames =
        (pushAudio vad sess audio).2.speechFrames ∧
      (pushAudio vad { sess with bufferF32 := b } audio).2.silenceFrames =
        (pushAudio vad sess audio).2.silenceFrames) := by
  refine ⟨?_, ?_, ?_, ?_⟩
  · intro h0 hfl
    unfold pushAudio
    rw [if_neg h0, if_pos hfl]
  · intro h0 hn hfl
    unfold pushAudio
    rw [if_neg h0, if_neg hfl, if_pos hn]
  · intro fl hfleq h0 hfl hn
    have hflpos : 0 < fl := Nat.pos_of_ne_zero hfl
    have hmod : audio.length - (audio.length / fl) * fl = audio.length % fl := by
      have hdm := Nat.div_add_mod audio.length fl
      rw [Nat.mul_comm] at hdm
      omega
    have hlen : (audio.drop (audio.length % fl)).length =
        (audio.length / fl) * fl := by
      rw [List.length_drop]
      have hdm := Nat.div_add_mod audio.length fl
      rw [Nat.mul_comm] at hdm
      omega
    refine ⟨hlen, chunksExact_flatten fl _ _ hlen,
      chunksExact_mem_length fl _ _ hlen, ?_⟩
    subst hfleq
    unfold pushAudio
    rw [if_neg h0, if_neg hfl, if_neg hn, hmod]
  · intro b
    unfold pushAudio
    by_cases h0 : audio = []
    · simp [h0]
    · simp only [if_neg h0]
      by_cases hfl : frameLenOf sess.sampleRateHz sess.frameMs = 0
      · simp [hfl]
      · simp only [hfl, if_neg hfl, if_false]
        by_cases hn : audio.length / frameLenOf sess.sampleRateHz sess.frameMs = 0
        · simp [hn]
        · simp only [hn, if_neg hn, if_false]
          exact ⟨trivial, trivial, trivial⟩

/-- Witness for C7's amended theorem: a frame length of zero (sample rate
0) appends the audio and produces no VAD decision. -/
theorem frame_segmentation_witness :
    pushAudio (fun l => l.any (fun x => decide (x ≠ 0)))
        { sampleRateHz := 0 } [1] =
      (false, { ({ sampleRateHz := 0 } : StreamSession) with
                  bufferF32 := ({ sampleRateHz := 0 } : StreamSession).bufferF32 ++ [1] }) :=
  (frame_segmentation (fun l => l.any (fun x => decide (x ≠ 0)))
      { sampleRateHz := 0 } [1]).1 (by decide) (by decide)

/-- C7 counterexample: the claim's formula `round(sample_rate * frame_ms
/ 1000)` disagrees with the code's truncation at sample rate 300 Hz and
frame 5 ms (exact quotient 1.5): the code computes frame length 1 and
does produce a VAD decision for a 1-sample push (the speech counter
advances), while a frame length of `round(1.5) = 2` would leave fewer
than one whole frame and no decision. -/
theorem frame_length_not_round :
    frameLenOf 300 5 = 1 ∧ roundFrameLen 300 5 = 2 ∧
    frameLenOf 300 5 ≠ roundFrameLen 300 5 ∧
    (pushAudio (fun l => l.any (fun x => decide (x ≠ 0)))
        { sampleRateHz := 300, frameMs := 5 } [1]).2.speechFrames = 1 ∧
    ([1] : List Sample).length < roundFrameLen 300 5 := by
  refine ⟨rfl, rfl, by decide, by decide, by decide⟩

/-! ## 4.6 Command Interpreter — `_clean_command_text`, `_command_key`,
`_command_actions` (lines 201–284) -/

/-- Editor actions (the `Action` tagged variant; Python emits them as
string-keyed dicts). -/
inductive Action where
  | insert (text : String)
  | delete_backward (count : Nat)
  | delete_backward_word (count : Nat)
  | delete_backward_sentence (count : Nat)
  | system_undo
  | system_redo
  | clear
  | set_composition (text : String)
deriving DecidableEq, Repr

/-- The character set of `strip("\r\n\t ,.!?;:，。！？；：")`. -/
def cleanStripSet : List Char :=
  ['\r', '\n', '\t', ' ', ',', '.', '!', '?', ';', ':',
   '，', '。', '！', '？', '；', '：']

/-- Python `s.strip(chars)`: drop leading and trailing characters drawn
from the set. -/
def stripChars (s : String) (cs : List Char) : String :=
  ⟨dropTrailWhile (fun c => cs.contains c) (s.data.dropWhile (fun c => cs.contains c))⟩

/-- `_clean_command_text`: `text.strip().strip("\r\n\t ,.!?;:，。！？；：")`. -/
def cleanCommandText (text : String) : String :=
  stripChars (pyStrip text) cleanStripSet

/-- `_command_key`: clean, lower-case, then strip all internal whitespace
and the fixed punctuation set. -/
def commandKey (text : String) : String :=
  let t := pyLower (cleanCommandText text)
  ⟨t.data.filter (fun c => !(isPyWs c || cleanStripSet.contains c))⟩

/-- `_SUPPRESSED_KEYS`. -/
def suppressedKeys : List String :=
  [commandKey "请优先使用简体中文标点与表达，保留英文单词",
   commandKey "请使用简体中文标点与表达，保留英文单词",
   commandKey "请优先使用简体中文标点与表达，保留英文单词/缩写原样"]

/-- `_is_suppressed_phrase`. -/
def isSuppressedPhrase (text : String) : Bool :=
  suppressedKeys.contains (commandKey text)

/-- The `punct_map` dict of `_command_actions`. -/
def punctMap : List (String × String) :=
  [("逗号", "，"), ("句号", "。"), ("问号", "？"), ("感叹号", "！"),
   ("冒号", "："), ("分号", "；"),
   ("comma", ","), ("period", "."), ("question mark", "?"),
   ("exclamation mark", "!"), ("colon", ":"), ("semicolon", ";")]

/-- The table lookup of `_command_actions` on the already-normalized key
`t` (everything after `t = _clean_command_text(text).lower()`). -/
def commandActionsOnKey (t : String) : Option (List Action) :=
  if t = "" then none
  else if isSuppressedPhrase t then some []
  else if t ∈ ["换行", "回车", "下一行", "new line", "newline", "enter"] then
    some [.insert "\n"]
  else if t ∈ ["空格", "space"] then some [.insert " "]
  else if t ∈ ["删除", "退格", "backspace", "delete"] then
    some [.delete_backward 1]
  else if t ∈ ["删除一个词", "删除上一个词", "delete word", "delete last word"] then
    some [.delete_backward_word 1]
  else if t ∈ ["删除一句", "删除上一句", "delete sentence", "delete last sentence"] then
    some [.delete_backward_sentence 1]
  else if t ∈ ["撤销", "undo"] then some [.system_undo]
  else if t ∈ ["重做", "redo"] then some [.system_redo]
  else if t ∈ ["清空", "清除", "clear"] then some [.clear]
  else
    match punctMap.lookup t with
    | some p => some [.insert p]
    | none => none

/-- `_command_actions`: `None` models Python `None` ("not a command");
`some acts` a concrete (possibly empty) action list. -/
def commandActions (text : String) : Option (List Action) :=
  commandActionsOnKey (pyLower (cleanCommandText text))

/-- Modelled from the spec's words for comparison (claim C8): normalize by
trimming, lower-casing, **and stripping all internal whitespace and the
fixed punctuation set** (`_command_key`), then look the normalized key up
in the command table. -/
def commandActionsSpec (text : String) : Option (List Action) :=
  commandActionsOnKey (commandKey text)

/-- C8 counterexample: the command-table lookup is performed on the
trimmed lower-cased text, not on the fully stripped `_command_key`:
`"换 行"` and `"换行"` share the normalized key `"换行"`, yet the code
treats `"换 行"` as "not a command" while `"换行"` maps to a line break —
and the table itself contains keys with internal whitespace
(`"new line"`, `"question mark"`) that the claimed normalization could
never produce. -/
theorem command_key_lookup_counterexample :
    commandKey "换 行" = commandKey "换行" ∧
    commandActions "换行" = some [.insert "\n"] ∧
    commandActions "换 行" = none ∧
    commandActionsSpec "换 行" = some [.insert "\n"] ∧
    commandActions "换 行" ≠ commandActionsSpec "换 行" := by
  refine ⟨rfl, rfl, rfl, rfl, by decide⟩

/-- C8 (amended): the Command Interpreter trims surrounding whitespace
and punctuation and lower-cases the text, and performs the table lookup
on that cleaned text; the additional internal whitespace/punctuation
stripping (`_command_key`) is applied only for the suppressed-phrase
check inside the lookup. -/
theorem command_matching_normalization (text : String) :
    commandActions text = commandActionsOnKey (pyLower (cleanCommandText text)) ∧
    (∀ t : String, commandActionsOnKey t = some [] ↔
      (t ≠ "" ∧ isSuppressedPhrase t = true)) := by
  refine ⟨rfl, ?_⟩
  intro t
  constructor
  · intro h
    unfold commandActionsOnKey at h
    by_cases h0 : t = ""
    · rw [if_pos h0] at h
      exact absurd h (by simp)
    · rw [if_neg h0] at h
      refine ⟨h0, ?_⟩
      by_cases hsup : isSuppressedPhrase t = true
      · exact hsup
      · rw [if_neg hsup] at h
        exfalso
        revert h
        split
        · intro h; simp at h
        · split
          · intro h; simp at h
          · split
            · intro h; simp at h
            · split
              · intro h; simp at h
              · split
                · intro h; simp at h
                · split
                  · intro h; simp at h
                  · split
                    · intro h; simp at h
                    · split
                      · intro h; simp at h
                      · split <;> intro h <;> simp_all
  · intro ⟨h0, hsup⟩
    unfold commandActionsOnKey
    rw [if_neg h0, if_pos hsup]

/-- Witness for C8's amended theorem at the concrete input `"换行"`. -/
theorem command_matching_normalization_witness :
    commandActions "换行" =
      commandActionsOnKey (pyLower (cleanCommandText "换行")) :=
  (command_matching_normalization "换行").1

/-! ## 4.5 Text Normalizer — `_normalize_mixed_spacing`,
`_looks_like_question`, `_maybe_insert_cn_comma`,
`_apply_tone_punctuation` (lines 115–198) -/

/-- One regex pass `re.sub(r"(X)(Y)", r"\1 \2", text)` for character
classes `X = p`, `Y = q`: insert a space between each non-overlapping
adjacent pair; scanning resumes after the matched pair. -/
def insSpace (p q : Char → Bool) : List Char → List Char
  | [] => []
  | [c1] => [c1]
  | c1 :: c2 :: rest2 =>
    if p c1 && q c2 then c1 :: ' ' :: c2 :: insSpace p q rest2
    else c1 :: insSpace p q (c2 :: rest2)

/-- `_normalize_mixed_spacing`: `_RE_CJK_ASCII` then `_RE_ASCII_CJK`. -/
def normalizeMixedSpacing (text : String) : String :=
  ⟨insSpace isAsciiAlnum isCjk (insSpace isCjk isAsciiAlnum text.data)⟩

/-- `re.search(r"[一-鿿]", t)`. -/
def hasCjkL (l : List Char) : Bool := l.any isCjk

/-- The literal alternatives of
`re.search(r"(是不是|是否|能不能|可不可以|可以吗|要不要|需不需要|有没有)", t)`. -/
def cnQuestionWords : List String :=
  ["是不是", "是否", "能不能", "可不可以", "可以吗", "要不要", "需不需要", "有没有"]

/-- The language of
`re.match(r"^(怎么|为什么|为啥|多少|几|哪(里|儿|个|些|种|位)?|谁|啥|什么|何时|什么时候)", t)`
as start literals (the optional group after `哪` expanded; the bare `哪`
alternative makes every `哪…` start match). -/
def cnQuestionStarts : List String :=
  ["怎么", "为什么", "为啥", "多少", "几", "哪里", "哪儿", "哪个", "哪些",
   "哪种", "哪位", "哪", "谁", "啥", "什么", "何时", "什么时候"]

/-- The word list of
`re.match(r"^(can|could|would|should|do|does|did|is|are|am|was|were|what|why|how|when|where|which|who)\b", lower)`. -/
def enQuestionStarts : List String :=
  ["can", "could", "would", "should", "do", "does", "did", "is", "are",
   "am", "was", "were", "what", "why", "how", "when", "where", "which", "who"]

/-- Substring containment (`re.search` of a literal). -/
def containsSubL (sub : List Char) : List Char → Bool
  | [] => sub.isEmpty
  | l@(_ :: tl) => sub.isPrefixOf l || containsSubL sub tl

/-- `re.search(r"(吗|么)\s*$", t)`: the last non-whitespace character is
`吗` or `么`. -/
def endsQuestionParticle (t : String) : Bool :=
  match t.data.reverse.dropWhile isPyWs with
  | c :: _ => c = '吗' ∨ c = '么'
  | [] => false

/-- `re.match(word)\b`: the text starts with one of the words at a word
boundary. -/
def startsWithWordBoundary (t : String) (ws : List String) : Bool :=
  ws.any (fun w =>
    w.data.isPrefixOf t.data &&
      (match t.data.drop w.data.length with
       | [] => true
       | c :: _ => !isWordChar c))

/-- `_looks_like_question`. -/
def looksLikeQuestion (text : String) : Bool :=
  let t := pyStrip text
  if t = "" then false
  else
    let t := pyStrip ⟨dropTrailWhile isEndPunct t.data⟩
    if t = "" then false
    else
      let lower := pyLower t
      if endsQuestionParticle t then true
      else if cnQuestionWords.any (fun w => containsSubL w.data t.data) then true
      else if cnQuestionStarts.any (fun w => w.data.isPrefixOf t.data) then true
      else if startsWithWordBoundary lower enQuestionStarts then true
      else false

/-- `_RE_CN_CONNECTOR`'s alternatives. -/
def cnConnectors : List String :=
  ["但是", "不过", "然后", "所以", "因此", "而且", "并且", "同时", "另外",
   "因为", "如果", "虽然", "接着", "随后"]

/-- A connector word starts at the head of `l`. -/
def connAt (l : List Char) : Bool :=
  cnConnectors.any (fun w => w.data.isPrefixOf l)

/-- `m.start()` of the leftmost `_RE_CN_CONNECTOR` match. -/
def findConnIdx : List Char → Option Nat
  | [] => none
  | l@(_ :: tl) => if connAt l then some 0 else (findConnIdx tl).map (· + 1)

/-- `_maybe_insert_cn_comma`. -/
def maybeInsertCnComma (text : String) : String :=
  if text = "" then text
  else if ¬ hasCjkL text.data then text
  else if text.data.any isCnComma then text
  else if pyLen text < 14 then text
  else
    match findConnIdx text.data with
    | none => text
    | some idx =>
      if idx ≤ 1 then text
      else ⟨text.data.take idx ++ '，' :: text.data.drop idx⟩

/-- `_RE_END_PUNCT.search(t)` (the anchored class run `[...]+$` matches
iff the last character is in the class). -/
def endsEndPunct (t : String) : Bool :=
  match t.data.reverse with
  | c :: _ => isEndPunct c
  | [] => false

/-- `t.endswith(".")`. -/
def endsWithDot (t : String) : Bool :=
  match t.data.reverse with
  | c :: _ => c = '.'
  | [] => false

/-- `_apply_tone_punctuation`. -/
def applyTonePunctuation (text : String) : String :=
  let t := pyStrip text
  if t = "" then t
  else
    let hasCjk := hasCjkL t.data
    let base := pyStrip ⟨dropTrailWhile isEndPunct t.data⟩
    if base = "" then t
    else
      let base := maybeInsertCnComma base
      if looksLikeQuestion base then base ++ (if hasCjk then "？" else "?")
      else if endsEndPunct t then
        (if hasCjk ∧ endsWithDot t then base ++ "。" else t)
      else base ++ (if hasCjk then "。" else ".")

/-- The finalized-text normalizer: mixed-language spacing followed by
tone/punctuation repair (which runs the comma-insertion pass), exactly as
the `stream_push` endpoint branch and `stream_finalize` compose them. -/
def normalizeFinalText (text : String) : String :=
  applyTonePunctuation (normalizeMixedSpacing text)

/-! ## 4.7 Action Composer and the endpoint finalization path -/

/-- `_compose_actions`. -/
def composeActions (kind : String) (text : String) (actions : List Action) :
    List Action :=
  if kind = "partial" then [.set_composition text] else actions

/-- Lines 704–718 of `stream_push` (the `if endpoint:` block, after the
engine returned `raw`): spacing normalization, command dispatch, and the
insert fallthrough.  Result: `(emitted_text, committed_text, actions)`. -/
def finalizeCommit (raw : String) : String × String × List Action :=
  let text := normalizeMixedSpacing raw
  match commandActions text with
  | some acts => (text, "", acts)
  | none =>
    let text2 := applyTonePunctuation text
    (text2, text2, if text2 ≠ "" then [.insert text2] else [])

/-- C9. Command vs. insert disjointness: the Command Interpreter's result
is exactly one of "not a command" (`none`) or a concrete action list
(`some`, possibly empty), never both; when it is a command the final
response carries exactly those actions with empty `committed_text`; when
it is not, the final response inserts the tone-normalized text (or
nothing when empty); and the command text `"换行"` yields exactly the
single final action `insert("\n")` with empty `committed_text`, passed
through unchanged by the final-stage composer. -/
theorem command_insert_disjointness :
    (∀ raw : String,
      (commandActions (normalizeMixedSpacing raw) = none ∧
        ¬ ∃ acts, commandActions (normalizeMixedSpacing raw) = some acts) ∨
      ((∃ acts, commandActions (normalizeMixedSpacing raw) = some acts) ∧
        commandActions (normalizeMixedSpacing raw) ≠ none)) ∧
    (∀ raw acts, commandActions (normalizeMixedSpacing raw) = some acts →
      (finalizeCommit raw).2.1 = "" ∧ (finalizeCommit raw).2.2 = acts) ∧
    (∀ raw, commandActions (normalizeMixedSpacing raw) = none →
      (finalizeCommit raw).2.1 = (finalizeCommit raw).1 ∧
      (finalizeCommit raw).2.2 =
        (if (finalizeCommit raw).1 ≠ "" then [Action.insert (finalizeCommit raw).1]
         else [])) ∧
    finalizeCommit "换行" = ("换行", "", [Action.insert "\n"]) ∧
    composeActions "final" "换行" [Action.insert "\n"] = [Action.insert "\n"] := by
  refine ⟨?_, ?_, ?_, rfl, rfl⟩
  · intro raw
    cases h : commandActions (normalizeMixedSpacing raw) with
    | none => exact Or.inl ⟨rfl, by simp⟩
    | some acts => exact Or.inr ⟨⟨acts, rfl⟩, by simp⟩
  · intro raw acts h
    simp only [finalizeCommit, h]
    exact ⟨trivial, trivial⟩
  · intro raw h
    simp only [finalizeCommit, h]
    exact ⟨trivial, trivial⟩

/-- Witness for C9 at the spec's scenario `"换行"`: a recognized command
commits nothing and returns exactly its action list. -/
theorem command_insert_disjointness_witness :
    (finalizeCommit "换行").2.1 = "" ∧
      (finalizeCommit "换行").2.2 = [Action.insert "\n"] :=
  command_insert_disjointness.2.1 "换行" [Action.insert "\n"] (by decide)

/-! ## 4.8 Session Registry and the `stream_push` / `stream_finalize`
handlers (`Service.handle`, lines 601–788) -/

/-- `self.sessions[session_id]` (first match in the association list that
models the dict). -/
def lookupSession : List (String × StreamSession) → String → Option StreamSession
  | [], _ => none
  | p :: rest, sid => if p.1 = sid then some p.2 else lookupSession rest sid

/-- `self.sessions.pop(session_id)`'s effect on the registry. -/
def removeSession (sessions : List (String × StreamSession)) (sid : String) :
    List (String × StreamSession) :=
  sessions.filter (fun p => decide (p.1 ≠ sid))

/-- In-place mutation of the session object held by the dict. -/
def updateSession (sessions : List (String × StreamSession)) (sid : String)
    (sess : StreamSession) : List (String × StreamSession) :=
  sessions.map (fun p => if p.1 = sid then (p.1, sess) else p)

/-- The `stream_push` response (`result` map; numeric/boolean fields are
transmitted as strings by the protocol but modelled typed). -/
structure PushResult where
  endpoint : Bool
  speechFrames : Nat
  silenceFrames : Nat
  text : String := ""
  final : Bool := false
  kind : String := "none"
  committedText : String := ""
  actions : List Action := []
  stablePrefix : String := ""
  unstableSuffix : String := ""
  deltaFrom : Nat := 0
  deltaDelete : Nat := 0
  deltaInsert : String := ""
deriving DecidableEq, Repr

/-- A request outcome: `failure` is the `{ok: false, error: msg}` response
produced when the handler raises or rejects; `success` the `{ok: true}`
response. -/
inductive PushOutcome where
  | failure (msg : String)
  | success (r : PushResult)
deriving DecidableEq, Repr

/-- The `stream_push` body once the session is found (lines 612–754).
Exception paths (`transcribe` returning `.error`) leave in the registry
exactly the mutations performed so far — i.e. the `push_audio` effects. -/
def handlePushSession (vad : List Sample → Bool)
    (transcribe : List Sample → Except String String)
    (sessions : List (String × StreamSession)) (sid : String)
    (audio : List Sample) (sess0 : StreamSession) :
    PushOutcome × List (String × StreamSession) :=
  let pr := pushAudio vad sess0 audio
  let endpoint := pr.1
  let sess := pr.2
  let speechFrames := sess.speechFrames
  let silenceFrames := sess.silenceFrames
  if ¬ endpoint ∧ 0 < speechFrames then
    if speechFrames * sess.frameMs < sess.minPartialSpeechMs then
      let sess2 := { sess with lastPartialSamples := sess.bufferF32.length }
      (.success { endpoint := false, speechFrames := speechFrames,
                  silenceFrames := silenceFrames },
       updateSession sessions sid sess2)
    else
      let intervalSamples := sess.sampleRateHz * sess.partialIntervalMs / 1000
      if 0 < intervalSamples ∧
          intervalSamples ≤ sess.bufferF32.length - sess.lastPartialSamples then
        let start := sess.bufferF32.length - sess.maxPartialContextS * sess.sampleRateHz
        let window := sess.bufferF32.drop start
        match transcribe window with
        | .error e => (.failure e, updateSession sessions sid sess)
        | .ok text =>
          if text ≠ "" then
            let sp := partialStabilize sess text
            let sess2 := { sp.1 with lastPartialSamples := sp.1.bufferF32.length }
            (.success { endpoint := false, speechFrames := speechFrames,
                        silenceFrames := silenceFrames,
                        text := sp.2.emittedText, final := false,
                        kind := sp.2.kind, committedText := "",
                        actions := if sp.2.kind = "partial" then
                            composeActions "partial" sp.2.emittedText []
                          else [],
                        stablePrefix := sp.2.stablePrefix,
                        unstableSuffix := sp.2.unstableSuffix,
                        deltaFrom := sp.2.deltaFrom,
                        deltaDelete := sp.2.deltaDelete,
                        deltaInsert := sp.2.deltaInsert },
             updateSession sessions sid sess2)
          else
            let sess2 := { sess with lastPartialSamples := sess.bufferF32.length }
            (.success { endpoint := false, speechFrames := speechFrames,
                        silenceFrames := silenceFrames },
             updateSession sessions sid sess2)
      else
        (.success { endpoint := false, speechFrames := speechFrames,
                    silenceFrames := silenceFrames },
         updateSession sessions sid sess)
  else if endpoint then
    match transcribe sess.bufferF32 with
    | .error e => (.failure e, updateSession sessions sid sess)
    | .ok raw =>
      let fc := finalizeCommit raw
      let text := fc.1
      let sess2 := if text ≠ "" then { sess with segmentsText := text } else sess
      let sess3 := resetCurrentUtterance sess2
      let prev := sess.lastEmittedText
      let cpl := commonPrefixLen prev text
      (.success { endpoint := true, speechFrames := speechFrames,
                  silenceFrames := silenceFrames,
                  text := text, final := true, kind := "final",
                  committedText := fc.2.1,
                  actions := composeActions "final" text fc.2.2,
                  stablePrefix := "", unstableSuffix := "",
                  deltaFrom := cpl, deltaDelete := pyLen prev - cpl,
                  deltaInsert := pyDrop text cpl },
       updateSession sessions sid sess3)
  else
    (.success { endpoint := false, speechFrames := speechFrames,
                silenceFrames := silenceFrames },
     updateSession sessions sid sess)

/-- `Service.handle` for `stream_push`: look the session up, reject an
unknown id, otherwise run the session body. -/
def handlePush (vad : List Sample → Bool)
    (transcribe : List Sample → Except String String)
    (sessions : List (String × StreamSession)) (sid : String)
    (audio : List Sample) : PushOutcome × List (String × StreamSession) :=
  match lookupSession sessions sid with
  | none => (.failure "Unknown session_id", sessions)
  | some sess0 => handlePushSession vad transcribe sessions sid audio sess0

/-- The `stream_finalize` response. -/
inductive FinalizeOutcome where
  | failure (msg : String)
  | success (text : String) (actions : List Action)
deriving DecidableEq, Repr

/-- The `stream_finalize` body once the session is found (lines 760–784):
pop the session first; a non-empty utterance buffer is transcribed
directly, an empty one reuses `segments_text` when present (no engine
call), else the empty text; then spacing/command/tone post-processing
(the same lines-777–781 pipeline as the endpoint branch, `finalizeCommit`
without the committed-text output). -/
def handleFinalizeSession (transcribe : List Sample → Except String String)
    (sessions : List (String × StreamSession)) (sid : String)
    (sess : StreamSession) : FinalizeOutcome × List (String × StreamSession) :=
  let sessions2 := removeSession sessions sid
  match (if 0 < sess.bufferF32.length then transcribe sess.bufferF32
         else .ok (if sess.segmentsText ≠ "" then sess.segmentsText else "")) with
  | .error e => (.failure e, sessions2)
  | .ok t => (.success (finalizeCommit t).1 (finalizeCommit t).2.2, sessions2)

/-- `Service.handle` for `stream_finalize`. -/
def handleFinalize (transcribe : List Sample → Except String String)
    (sessions : List (String × StreamSession)) (sid : String) :
    FinalizeOutcome × List (String × StreamSession) :=
  match lookupSession sessions sid with
  | none => (.failure "Unknown session_id", sessions)
  | some sess => handleFinalizeSession transcribe sessions sid sess

theorem lookupSession_removeSession (sessions : List (String × StreamSession))
    (sid : String) : lookupSession (removeSession sessions sid) sid = none := by
  induction sessions with
  | nil => rfl
  | cons p rest ih =>
    unfold removeSession at ih ⊢
    rw [List.filter_cons]
    by_cases h : p.1 = sid
    · rw [if_neg (by simp [h])]
      exact ih
    · rw [if_pos (by simp [h])]
      unfold lookupSession
      rw [if_neg h]
      exact ih

theorem lookupSession_updateSession (sessions : List (String × StreamSession))
    (sid : String) (sess0 sess : StreamSession)
    (h : lookupSession sessions sid = some sess0) :
    lookupSession (updateSession sessions sid sess) sid = some sess := by
  induction sessions with
  | nil => simp [lookupSession] at h
  | cons p rest ih =>
    unfold updateSession at ih ⊢
    unfold lookupSession at h
    rw [List.map_cons]
    by_cases hp : p.1 = sid
    · rw [if_pos hp]
      unfold lookupSession
      rw [if_pos hp]
    · rw [if_neg hp]
      unfold lookupSession
      rw [if_neg hp]
      rw [if_neg hp] at h
      exact ih h

theorem pushAudio_buffer (vad : List Sample → Bool) (sess : StreamSession)
    (audio : List Sample) :
    (pushAudio vad sess audio).2.bufferF32 = sess.bufferF32 ++ audio := by
  unfold pushAudio
  by_cases h0 : audio = []
  · simp [h0]
  · simp only [if_neg h0]
    by_cases h1 : frameLenOf sess.sampleRateHz sess.frameMs = 0
    · simp [h1]
    · simp only [if_neg h1]
      by_cases h2 : audio.length / frameLenOf sess.sampleRateHz sess.frameMs = 0
      · simp [h2]
      · simp only [if_neg h2]

theorem pushAudio_preserves (vad : List Sample → Bool) (sess : StreamSession)
    (audio : List Sample) :
    (pushAudio vad sess audio).2.committedPrefix = sess.committedPrefix ∧
    (pushAudio vad sess audio).2.lastEmittedText = sess.lastEmittedText ∧
    (pushAudio vad sess audio).2.segmentsText = sess.segmentsText ∧
    (pushAudio vad sess audio).2.lastPartialSamples = sess.lastPartialSamples ∧
    (pushAudio vad sess audio).2.lastPrefixCandidate = sess.lastPrefixCandidate ∧
    (pushAudio vad sess audio).2.prefixStreak = sess.prefixStreak := by
  unfold pushAudio
  by_cases h0 : audio = []
  · simp [h0]
  · simp only [if_neg h0]
    by_cases h1 : frameLenOf sess.sampleRateHz sess.frameMs = 0
    · simp [h1]
    · simp only [if_neg h1]
      by_cases h2 : audio.length / frameLenOf sess.sampleRateHz sess.frameMs = 0
      · simp [h2]
      · simp [h2]

/-- When the session body answers with a failure, the only mutations that
reached the registry are the `push_audio` ones. -/
theorem handlePushSession_failure (vad : List Sample → Bool)
    (transcribe : List Sample → Except String String)
    (sessions : List (String × StreamSession)) (sid : String)
    (audio : List Sample) (sess0 : StreamSession) (msg : String)
    (hfail : (handlePushSession vad transcribe sessions sid audio sess0).1 =
      .failure msg) :
    (handlePushSession vad transcribe sessions sid audio sess0).2 =
      updateSession sessions sid (pushAudio vad sess0 audio).2 := by
  simp only [handlePushSession] at hfail ⊢
  split at hfail
  · next hc1 =>
    rw [if_pos hc1]
    split at hfail
    · next hc2 => simp at hfail
    · next hc2 =>
      rw [if_neg hc2]
      split at hfail
      · next hc3 =>
        rw [if_pos hc3]
        split at hfail
        · next e heq =>
          rfl
        · next t heq =>
          split at hfail
          · next hc4 => simp at hfail
          · next hc4 => simp at hfail
      · next hc3 =>
        simp at hfail
  · next hc1 =>
    rw [if_neg hc1]
    split at hfail
    · next hep =>
      rw [if_pos hep]
      split at hfail
      · next e heq =>
        rfl
      · next raw heq =>
        simp at hfail
    · next hep =>
      simp at hfail

theorem handleFinalizeSession_registry
    (transcribe : List Sample → Except String String)
    (sessions : List (String × StreamSession)) (sid : String)
    (sess : StreamSession) :
    (handleFinalizeSession transcribe sessions sid sess).2 =
      removeSession sessions sid := by
  unfold handleFinalizeSession
  cases hif : (if 0 < sess.bufferF32.length then transcribe sess.bufferF32
      else .ok (if sess.segmentsText ≠ "" then sess.segmentsText else "")) with
  | error e => simp [hif]
  | ok t => simp [hif]

theorem handlePush_of_lookup (vad : List Sample → Bool)
    (transcribe : List Sample → Except String String)
    (sessions : List (String × StreamSession)) (sid : String)
    (audio : List Sample) (sess0 : StreamSession)
    (h : lookupSession sessions sid = some sess0) :
    handlePush vad transcribe sessions sid audio =
      handlePushSession vad transcribe sessions sid audio sess0 := by
  unfold handlePush
  rw [h]

theorem handleFinalize_of_lookup
    (transcribe : List Sample → Except String String)
    (sessions : List (String × StreamSession)) (sid : String)
    (sess : StreamSession)
    (h : lookupSession sessions sid = some sess) :
    handleFinalize transcribe sessions sid =
      handleFinalizeSession transcribe sessions sid sess := by
  unfold handleFinalize
  rw [h]

/-- C5. Finalize semantics: for a known session, finalize always removes
the session from the registry (even when transcription fails); a
non-empty utterance buffer is transcribed directly (the engine's verdict
on exactly that buffer decides the response); an empty buffer with a
cached last finalized text reuses the cache with no engine involvement
(the whole outcome is independent of the transcription function); and an
empty buffer with no cache post-processes the empty text. -/
theorem finalize_semantics (transcribe : List Sample → Except String String)
    (sessions : List (String × StreamSession)) (sid : String)
    (sess : StreamSession)
    (h : lookupSession sessions sid = some sess) :
    lookupSession (handleFinalize transcribe sessions sid).2 sid = none ∧
    (sess.bufferF32 ≠ [] →
      (handleFinalize transcribe sessions sid).1 =
        match transcribe sess.bufferF32 with
        | .error e => .failure e
        | .ok t => .success (finalizeCommit t).1 (finalizeCommit t).2.2) ∧
    (sess.bufferF32 = [] → sess.segmentsText ≠ "" →
      (handleFinalize transcribe sessions sid).1 =
        .success (finalizeCommit sess.segmentsText).1
          (finalizeCommit sess.segmentsText).2.2 ∧
      ∀ transcribe2 : List Sample → Except String String,
        handleFinalize transcribe2 sessions sid =
          handleFinalize transcribe sessions sid) ∧
    (sess.bufferF32 = [] → sess.segmentsText = "" →
      (handleFinalize transcribe sessions sid).1 =
        .success (finalizeCommit "").1 (finalizeCommit "").2.2) := by
  rw [handleFinalize_of_lookup transcribe sessions sid sess h]
  refine ⟨?_, ?_, ?_, ?_⟩
  · rw [handleFinalizeSession_registry]
    exact lookupSession_removeSession sessions sid
  · intro hne
    unfold handleFinalizeSession
    rw [if_pos (List.length_pos.mpr hne)]
    cases htr : transcribe sess.bufferF32 with
    | error e => simp [htr]
    | ok t => simp [htr]
  · intro hemp hcache
    constructor
    · unfold handleFinalizeSession
      rw [if_neg (by simp [hemp]), if_pos hcache]
    · intro transcribe2
      rw [handleFinalize_of_lookup transcribe2 sessions sid sess h]
      unfold handleFinalizeSession
      simp [hemp]
  · intro hemp hnocache
    unfold handleFinalizeSession
    rw [if_neg (by simp [hemp]), if_neg (by simp [hnocache])]

/-- Witness for C5: a session whose buffer was already cleared by an
endpoint answers finalize from the cached `segments_text`, and the engine
(here one that always fails) is never consulted. -/
theorem finalize_semantics_witness :
    (handleFinalize (fun _ => Except.error "boom")
        [("s", { sampleRateHz := 16000, segmentsText := "你好。" })] "s").1 =
      .success (finalizeCommit "你好。").1 (finalizeCommit "你好。").2.2 :=
  ((finalize_semantics (fun _ => Except.error "boom")
      [("s", { sampleRateHz := 16000, segmentsText := "你好。" })] "s"
      { sampleRateHz := 16000, segmentsText := "你好。" } (by decide)).2.2.1
    rfl (by decide)).1

/-- C6 counterexample: the claim promises that after a transcription
failure "the session remains available so that the caller may retry the
call", also for `stream_finalize`; but the code pops the session before
transcribing, so a failed finalize returns the error with the session
already gone from the registry. -/
theorem finalize_failure_removes_session :
    (handleFinalize (fun _ => Except.error "boom")
        [("s", { sampleRateHz := 16000, bufferF32 := [1] })] "s").1 =
      .failure "boom" ∧
    lookupSession (handleFinalize (fun _ => Except.error "boom")
        [("s", { sampleRateHz := 16000, bufferF32 := [1] })] "s").2 "s" =
      none := by
  exact ⟨by decide, by decide⟩

/-- C6 (amended: push failures are atomic in the claimed sense, but a
finalize failure still removes the session).  If the engine fails during
`stream_push` on a known session, the request answers with the error and
the registry still holds the session, mutated only by `push_audio`: the
buffer keeps the appended audio (it is not cleared) and the whole
stabilization state and finalized-text cache are untouched, so the caller
may retry; if the engine fails during `stream_finalize`, the request
answers with the error but the session has already been removed. -/
theorem transcription_failure_atomicity (vad : List Sample → Bool)
    (transcribe : List Sample → Except String String)
    (sessions : List (String × StreamSession)) (sid : String)
    (audio : List Sample) (sess0 : StreamSession) (msg : String)
    (h : lookupSession sessions sid = some sess0) :
    ((handlePush vad transcribe sessions sid audio).1 = .failure msg →
      lookupSession (handlePush vad transcribe sessions sid audio).2 sid =
        some (pushAudio vad sess0 audio).2 ∧
      (pushAudio vad sess0 audio).2.bufferF32 = sess0.bufferF32 ++ audio ∧
      (pushAudio vad sess0 audio).2.committedPrefix = sess0.committedPrefix ∧
      (pushAudio vad sess0 audio).2.lastEmittedText = sess0.lastEmittedText ∧
      (pushAudio vad sess0 audio).2.segmentsText = sess0.segmentsText ∧
      (pushAudio vad sess0 audio).2.lastPartialSamples = sess0.lastPartialSamples) ∧
    ((handleFinalize transcribe sessions sid).1 = .failure msg →
      lookupSession (handleFinalize transcribe sessions sid).2 sid = none) := by
  constructor
  · intro hfail
    rw [handlePush_of_lookup vad transcribe sessions sid audio sess0 h] at hfail ⊢
    rw [handlePushSession_failure vad transcribe sessions sid audio sess0 msg hfail]
    have hp := pushAudio_preserves vad sess0 audio
    exact ⟨lookupSession_updateSession sessions sid sess0 _ h,
      pushAudio_buffer vad sess0 audio, hp.1, hp.2.1, hp.2.2.1, hp.2.2.2.1⟩
  · intro hfail
    rw [handleFinalize_of_lookup transcribe sessions sid sess0 h,
      handleFinalizeSession_registry]
    exact lookupSession_removeSession sessions sid

/-- Witness for C6's amended theorem: a push that reaches the endpoint
with a failing engine keeps the session registered, with the pushed
silence appended to the buffer and the counters advanced, and nothing
else changed. -/
theorem transcription_failure_atomicity_witness :
    lookupSession (handlePush (fun l => l.any (fun x => decide (x ≠ 0)))
        (fun _ => Except.error "boom")
        [("s", { sampleRateHz := 1000, speechFrames := 1, endSilenceMs := 30 })]
        "s" (List.replicate 30 0)).2 "s" =
      some (pushAudio (fun l => l.any (fun x => decide (x ≠ 0)))
        { sampleRateHz := 1000, speechFrames := 1, endSilenceMs := 30 }
        (List.replicate 30 0)).2 :=
  ((transcription_failure_atomicity (fun l => l.any (fun x => decide (x ≠ 0)))
      (fun _ => Except.error "boom")
      [("s", { sampleRateHz := 1000, speechFrames := 1, endSilenceMs := 30 })]
      "s" (List.replicate 30 0)
      { sampleRateHz := 1000, speechFrames := 1, endSilenceMs := 30 }
      "boom" (by decide)).1 (by decide)).1

/-! ## C4 groundwork: facts about `stripL`, `dropTrailWhile` and
character-class presence -/

theorem dropWhile_eq_self_of_head (p : Char → Bool) (l : List Char) (c : Char)
    (hc : l.head? = some c) (hp : p c = false) : l.dropWhile p = l := by
  cases l with
  | nil => rfl
  | cons a as =>
    simp only [List.head?_cons, Option.some_inj] at hc
    rw [List.dropWhile_cons, hc, hp]
    simp

theorem head_dropWhile_false (p : Char → Bool) :
    ∀ (l : List Char) (c : Char), (l.dropWhile p).head? = some c → p c = false
  | [], c => by simp [List.dropWhile]
  | a :: as, c => by
    rw [List.dropWhile_cons]
    by_cases hp : p a = true
    · rw [if_pos hp]
      exact head_dropWhile_false p as c
    · rw [if_neg hp]
      intro h
      simp only [List.head?_cons, Option.some_inj] at h
      subst h
      exact Bool.eq_false_iff.mpr hp

theorem dropWhile_eq_self_of_prefix (p : Char → Bool) (l m : List Char)
    (hm : m.dropWhile p = m) (hl : l <+: m) : l.dropWhile p = l := by
  cases l with
  | nil => rfl
  | cons a as =>
    cases m with
    | nil => simp at hl
    | cons b bs =>
      have hab : a = b := by
        rcases hl with ⟨t, ht⟩
        simp only [List.cons_append, List.cons.injEq] at ht
        exact ht.1
      subst hab
      rw [List.dropWhile_cons] at hm ⊢
      by_cases hp : p a = true
      · rw [if_pos hp] at hm
        exfalso
        have := congrArg List.length hm
        have hle := List.length_le_of_sublist (List.dropWhile_sublist (l := bs) p)
        simp at this
        omega
      · rw [if_neg hp]

theorem dropTrailWhile_append_singleton (p : Char → Bool) (l : List Char)
    (c : Char) :
    dropTrailWhile p (l ++ [c]) =
      if p c then dropTrailWhile p l else l ++ [c] := by
  unfold dropTrailWhile
  rw [List.reverse_append]
  simp only [List.reverse_cons, List.reverse_nil, List.nil_append,
    List.singleton_append, List.dropWhile_cons]
  by_cases hp : p c = true
  · rw [if_pos hp, if_pos hp]
  · rw [if_neg hp, if_neg hp]
    simp

theorem dropTrailWhile_eq_self_of_getLast (p : Char → Bool) (l : List Char)
    (c : Char) (hc : l.getLast? = some c) (hp : p c = false) :
    dropTrailWhile p l = l := by
  unfold dropTrailWhile
  rw [dropWhile_eq_self_of_head p l.reverse c (by rw [List.head?_reverse]; exact hc) hp,
    List.reverse_reverse]

theorem dropTrailWhile_getLast_false (p : Char → Bool) (l : List Char) (c : Char)
    (hc : (dropTrailWhile p l).getLast? = some c) : p c = false := by
  unfold dropTrailWhile at hc
  rw [List.getLast?_reverse] at hc
  exact head_dropWhile_false p l.reverse c hc

theorem dropTrailWhile_front (p : Char → Bool) (l : List Char) :
    dropTrailWhile p l <+: l := by
  unfold dropTrailWhile
  rw [← List.reverse_suffix]
  simp only [List.reverse_reverse]
  exact List.dropWhile_suffix p

theorem dropWhile_idem (p : Char → Bool) (l : List Char) :
    (l.dropWhile p).dropWhile p = l.dropWhile p := by
  cases hdw : l.dropWhile p with
  | nil => rfl
  | cons a as =>
    have ha : p a = false := head_dropWhile_false p l a (by rw [hdw]; rfl)
    rw [List.dropWhile_cons, ha]
    simp

theorem dropTrailWhile_idem (p : Char → Bool) (l : List Char) :
    dropTrailWhile p (dropTrailWhile p l) = dropTrailWhile p l := by
  unfold dropTrailWhile
  rw [List.reverse_reverse, dropWhile_idem]

theorem stripL_head_false (l : List Char) (c : Char)
    (hc : (stripL l).head? = some c) : isPyWs c = false := by
  unfold stripL at hc
  have hpre := dropTrailWhile_front isPyWs (l.dropWhile isPyWs)
  rcases hpre with ⟨t, ht⟩
  have : (l.dropWhile isPyWs).head? = some c := by
    rw [← ht]
    cases hdw : dropTrailWhile isPyWs (l.dropWhile isPyWs) with
    | nil => rw [hdw] at hc; simp at hc
    | cons a as =>
      rw [hdw] at hc
      simp only [List.head?_cons, Option.some_inj] at hc
      subst hc
      simp
  exact head_dropWhile_false isPyWs l c this

theorem stripL_getLast_false (l : List Char) (c : Char)
    (hc : (stripL l).getLast? = some c) : isPyWs c = false :=
  dropTrailWhile_getLast_false isPyWs _ c hc

theorem stripL_eq_self_of (l : List Char)
    (h1 : ∀ c, l.head? = some c → isPyWs c = false)
    (h2 : ∀ c, l.getLast? = some c → isPyWs c = false) :
    stripL l = l := by
  unfold stripL
  cases l with
  | nil => rfl
  | cons a as =>
    rw [dropWhile_eq_self_of_head isPyWs (a :: as) a rfl (h1 a rfl)]
    cases hlast : (a :: as).getLast? with
    | none => simp at hlast
    | some c => exact dropTrailWhile_eq_self_of_getLast isPyWs _ c hlast (h2 c hlast)

theorem stripL_idem (l : List Char) : stripL (stripL l) = stripL l := by
  apply stripL_eq_self_of
  · exact stripL_head_false l
  · exact stripL_getLast_false l

theorem any_dropWhile_eq (q p : Char → Bool) (hpq : ∀ c, p c = true → q c = false) :
    ∀ l : List Char, (l.dropWhile p).any q = l.any q := by
  intro l
  induction l with
  | nil => rfl
  | cons a as ih =>
    rw [List.dropWhile_cons]
    by_cases hp : p a = true
    · rw [if_pos hp, ih, List.any_cons, hpq a hp]
      simp
    · rw [if_neg hp]

theorem any_dropTrailWhile_eq (q p : Char → Bool)
    (hpq : ∀ c, p c = true → q c = false) (l : List Char) :
    (dropTrailWhile p l).any q = l.any q := by
  unfold dropTrailWhile
  rw [List.any_reverse, any_dropWhile_eq q p hpq, List.any_reverse]

theorem any_stripL_eq (q : Char → Bool)
    (hpq : ∀ c, isPyWs c = true → q c = false) (l : List Char) :
    (stripL l).any q = l.any q := by
  unfold stripL
  rw [any_dropTrailWhile_eq q isPyWs hpq, any_dropWhile_eq q isPyWs hpq]

theorem isPyWs_not_cjk (c : Char) (h : isPyWs c = true) : isCjk c = false := by
  simp only [isPyWs, decide_eq_true_eq] at h
  rcases h with h | h | h | h | h | h | h | h <;> subst h <;> decide

theorem isEndPunct_not_cjk (c : Char) (h : isEndPunct c = true) : isCjk c = false := by
  simp only [isEndPunct, decide_eq_true_eq] at h
  rcases h with h | h | h | h | h | h | h <;> subst h <;> decide

/-! ## C4 groundwork: the spacing pass is idempotent and its output stays
free of CJK–Latin adjacencies -/

/-- No adjacent pair `(a, b)` with `p a` and `q b` occurs in `l`. -/
def PairFree (p q : Char → Bool) (l : List Char) : Prop :=
  List.Chain' (fun a b => ¬(p a = true ∧ q b = true)) l

theorem alnum_not_cjk (c : Char) (h : isAsciiAlnum c = true) : isCjk c = false := by
  simp only [isAsciiAlnum, decide_eq_true_eq] at h
  simp only [isCjk, decide_eq_false_iff_not, not_and, not_le]
  omega

theorem cjk_not_alnum (c : Char) (h : isCjk c = true) : isAsciiAlnum c = false := by
  simp only [isCjk, decide_eq_true_eq] at h
  simp only [isAsciiAlnum, decide_eq_false_iff_not]
  omega

theorem insSpace_head? (p q : Char → Bool) :
    ∀ l : List Char, (insSpace p q l).head? = l.head?
  | [] => rfl
  | [_] => rfl
  | c1 :: c2 :: rest => by
    unfold insSpace
    split <;> rfl

theorem pairFree_insSpace (p q : Char → Bool) (hp : p ' ' = false)
    (hq : q ' ' = false) (hdisj : ∀ c, q c = true → p c = false) :
    ∀ l : List Char, PairFree p q (insSpace p q l)
  | [] => List.chain'_nil
  | [c] => List.chain'_singleton c
  | c1 :: c2 :: rest => by
    unfold insSpace
    split
    · next hmatch =>
      rcases Bool.and_eq_true_iff.mp hmatch with ⟨_, hq2⟩
      refine List.chain'_cons.mpr ⟨fun hw => by simp [hq] at hw,
        List.chain'_cons.mpr ⟨fun hw => by simp [hp] at hw,
          List.chain'_cons'.mpr ⟨?_, pairFree_insSpace p q hp hq hdisj rest⟩⟩⟩
      intro b _ hw
      rw [hdisj c2 hq2] at hw
      simp at hw
    · next hmatch =>
      refine List.chain'_cons'.mpr
        ⟨?_, pairFree_insSpace p q hp hq hdisj (c2 :: rest)⟩
      intro b hb hw
      rw [insSpace_head? p q (c2 :: rest)] at hb
      simp only [List.head?_cons, Option.mem_def, Option.some_inj] at hb
      subst hb
      rcases hw with ⟨h1, h2⟩
      rw [h1, h2] at hmatch
      simp at hmatch

theorem insSpace_eq_self (p q : Char → Bool) :
    ∀ l : List Char, PairFree p q l → insSpace p q l = l
  | [], _ => rfl
  | [_], _ => rfl
  | c1 :: c2 :: rest, h => by
    have hno := (List.chain'_cons.mp h).1
    have htail := (List.chain'_cons.mp h).2
    unfold insSpace
    rw [if_neg (fun hc => hno (Bool.and_eq_true_iff.mp hc)),
      insSpace_eq_self p q (c2 :: rest) htail]

theorem pairFree_insSpace_other (p q pb qb : Char → Bool)
    (hpb : pb ' ' = false) (hqb : qb ' ' = false) :
    ∀ l : List Char, PairFree pb qb l → PairFree pb qb (insSpace p q l)
  | [], _ => List.chain'_nil
  | [c], _ => List.chain'_singleton c
  | c1 :: c2 :: rest, h => by
    have h12 := (List.chain'_cons.mp h).1
    have htail := (List.chain'_cons.mp h).2
    unfold insSpace
    split
    · have htail2 := (List.chain'_cons'.mp htail).2
      have hlink := (List.chain'_cons'.mp htail).1
      refine List.chain'_cons.mpr ⟨fun hw => by simp [hqb] at hw,
        List.chain'_cons.mpr ⟨fun hw => by simp [hpb] at hw,
          List.chain'_cons'.mpr
            ⟨?_, pairFree_insSpace_other p q pb qb hpb hqb rest htail2⟩⟩⟩
      intro b hb
      rw [insSpace_head? p q rest] at hb
      exact hlink b hb
    · refine List.chain'_cons'.mpr
        ⟨?_, pairFree_insSpace_other p q pb qb hpb hqb (c2 :: rest) htail⟩
      intro b hb
      rw [insSpace_head? p q (c2 :: rest)] at hb
      simp only [List.head?_cons, Option.mem_def, Option.some_inj] at hb
      subst hb
      exact h12

theorem pairFree_spacing_cjkAlnum (text : String) :
    PairFree isCjk isAsciiAlnum (normalizeMixedSpacing text).data :=
  pairFree_insSpace_other isAsciiAlnum isCjk isCjk isAsciiAlnum
    (by decide) (by decide) _
    (pairFree_insSpace isCjk isAsciiAlnum (by decide) (by decide)
      alnum_not_cjk text.data)

theorem pairFree_spacing_alnumCjk (text : String) :
    PairFree isAsciiAlnum isCjk (normalizeMixedSpacing text).data :=
  pairFree_insSpace isAsciiAlnum isCjk (by decide) (by decide)
    cjk_not_alnum _

theorem spacing_eq_self_of_pairFree (y : String)
    (h1 : PairFree isCjk isAsciiAlnum y.data)
    (h2 : PairFree isAsciiAlnum isCjk y.data) :
    normalizeMixedSpacing y = y := by
  unfold normalizeMixedSpacing
  apply String.ext
  show insSpace isAsciiAlnum isCjk (insSpace isCjk isAsciiAlnum y.data) = y.data
  rw [insSpace_eq_self isCjk isAsciiAlnum y.data h1,
    insSpace_eq_self isAsciiAlnum isCjk y.data h2]

/-- The mixed-spacing pass is idempotent. -/
theorem spacing_idem (x : String) :
    normalizeMixedSpacing (normalizeMixedSpacing x) = normalizeMixedSpacing x :=
  spacing_eq_self_of_pairFree _ (pairFree_spacing_cjkAlnum x)
    (pairFree_spacing_alnumCjk x)

/-! ## C4 groundwork: the comma-insertion pass -/

theorem findConnIdx_lt : ∀ (l : List Char) (i : Nat),
    findConnIdx l = some i → i < l.length
  | [], i => by simp [findConnIdx]
  | a :: tl, i => by
    unfold findConnIdx
    by_cases hc : connAt (a :: tl) = true
    · rw [if_pos hc]
      intro h
      simp only [Option.some_inj] at h
      subst h
      simp
    · rw [if_neg hc]
      intro h
      rcases Option.map_eq_some'.mp h with ⟨j, hj, hi⟩
      subst hi
      have := findConnIdx_lt tl j hj
      simp
      omega

theorem getLast?_drop_of_lt : ∀ (l : List Char) (i : Nat), i < l.length →
    (l.drop i).getLast? = l.getLast?
  | [], i => by simp
  | a :: tl, 0 => by simp
  | a :: tl, i + 1 => by
    intro h
    rw [List.drop_succ_cons]
    rw [getLast?_drop_of_lt tl i (by simpa using h)]
    cases tl with
    | nil => simp at h
    | cons b bs => simp [List.getLast?_cons_cons]

theorem head?_take_of_pos (l : List Char) (i : Nat) (h : 0 < i) :
    (l.take i).head? = l.head? := by
  cases l with
  | nil => simp
  | cons a as =>
    cases i with
    | zero => omega
    | succ n => simp [List.take_succ_cons]

/-- `_maybe_insert_cn_comma` either returns its input unchanged or inserts
a single `，` at an internal index at least 2. -/
theorem maybeInsertCnComma_shape (z : String) :
    maybeInsertCnComma z = z ∨
      ∃ i, 2 ≤ i ∧ i < z.data.length ∧ hasCjkL z.data = true ∧
        (maybeInsertCnComma z).data = z.data.take i ++ '，' :: z.data.drop i := by
  unfold maybeInsertCnComma
  by_cases h0 : z = ""
  · rw [if_pos h0]; exact Or.inl rfl
  · rw [if_neg h0]
    by_cases h1 : ¬ hasCjkL z.data = true
    · rw [if_pos h1]; exact Or.inl rfl
    · rw [if_neg h1]
      by_cases h2 : z.data.any isCnComma = true
      · rw [if_pos h2]; exact Or.inl rfl
      · rw [if_neg h2]
        by_cases h3 : pyLen z < 14
        · rw [if_pos h3]; exact Or.inl rfl
        · rw [if_neg h3]
          split
          · exact Or.inl rfl
          · next idx hf =>
            by_cases h4 : idx ≤ 1
            · rw [if_pos h4]; exact Or.inl rfl
            · rw [if_neg h4]
              refine Or.inr ⟨idx, by omega, findConnIdx_lt z.data idx hf,
                by simpa using h1, rfl⟩

theorem maybeInsertCnComma_head? (z : String) :
    (maybeInsertCnComma z).data.head? = z.data.head? := by
  rcases maybeInsertCnComma_shape z with h | ⟨i, hi2, hilen, _, hdata⟩
  · rw [h]
  · rw [hdata, List.head?_append, head?_take_of_pos z.data i (by omega)]
    cases hz : z.data with
    | nil =>
      rw [hz] at hilen
      simp at hilen
    | cons a as => simp [hz]

theorem maybeInsertCnComma_getLast? (z : String) :
    (maybeInsertCnComma z).data.getLast? = z.data.getLast? := by
  rcases maybeInsertCnComma_shape z with h | ⟨i, hi2, hilen, _, hdata⟩
  · rw [h]
  · rw [hdata]
    have hdropne : z.data.drop i ≠ [] := by
      intro hc
      have hlen := congrArg List.length hc
      rw [List.length_drop] at hlen
      simp only [List.length_nil] at hlen
      omega
    rw [List.getLast?_append_of_ne_nil _ (by simp), List.getLast?_cons,
      getLast?_drop_of_lt z.data i hilen]
    cases hlast : z.data.getLast? with
    | none =>
      rw [List.getLast?_eq_none_iff] at hlast
      rw [hlast] at hilen
      simp at hilen
    | some c => rfl

theorem maybeInsertCnComma_hasCjk (z : String) :
    hasCjkL (maybeInsertCnComma z).data = hasCjkL z.data := by
  rcases maybeInsertCnComma_shape z with h | ⟨i, _, _, _, hdata⟩
  · rw [h]
  · unfold hasCjkL
    rw [hdata, List.any_append, List.any_cons]
    rw [show isCjk '，' = false from by decide]
    conv_rhs => rw [← List.take_append_drop i z.data]
    rw [List.any_append]
    simp

theorem maybeInsertCnComma_of_contains (w : String)
    (h : w.data.any isCnComma = true) : maybeInsertCnComma w = w := by
  unfold maybeInsertCnComma
  by_cases h0 : w = ""
  · rw [if_pos h0]
  · rw [if_neg h0]
    by_cases h1 : ¬ hasCjkL w.data = true
    · rw [if_pos h1]
    · rw [if_neg h1, if_pos h]

theorem maybeInsertCnComma_idem (z : String) :
    maybeInsertCnComma (maybeInsertCnComma z) = maybeInsertCnComma z := by
  rcases maybeInsertCnComma_shape z with h | ⟨i, _, hilen, _, hdata⟩
  · rw [h, h]
  · apply maybeInsertCnComma_of_contains
    rw [hdata, List.any_append, List.any_cons]
    rw [show isCnComma '，' = true from by decide]
    simp

/-! ## C4 groundwork: facts about a tone-repair output of the shape
`b1 ++ [q]` -/

/-- The text left over after removing the trailing sentence-punctuation
run and the whitespace around it (the `base` computed by
`_apply_tone_punctuation` before comma insertion). -/
def punctStrippedCore (s : String) : String :=
  pyStrip ⟨dropTrailWhile isEndPunct (pyStrip s).data⟩

theorem string_eq_empty_iff (s : String) : s = "" ↔ s.data = [] :=
  ⟨fun h => by rw [h], fun h => String.ext h⟩

theorem endsEndPunct_append_char (b1 : String) (q : Char) :
    endsEndPunct (b1 ++ ⟨[q]⟩) = isEndPunct q := by
  unfold endsEndPunct
  rw [String.data_append]
  rw [List.reverse_append]
  rfl

theorem endsWithDot_append_char (b1 : String) (q : Char) :
    endsWithDot (b1 ++ ⟨[q]⟩) = decide (q = '.') := by
  unfold endsWithDot
  rw [String.data_append, List.reverse_append]
  show (if q = '.' then true else false) = _
  by_cases h : q = '.' <;> simp [h]

theorem append_char_ne_empty (b1 : String) (q : Char) : b1 ++ ⟨[q]⟩ ≠ "" := by
  rw [Ne, string_eq_empty_iff, String.data_append]
  simp

theorem pyStrip_append_char (b1 : String) (q : Char) (c0 : Char)
    (hh : b1.data.head? = some c0) (hh2 : isPyWs c0 = false)
    (hqw : isPyWs q = false) :
    pyStrip (b1 ++ ⟨[q]⟩) = b1 ++ ⟨[q]⟩ := by
  apply String.ext
  show stripL (b1 ++ ⟨[q]⟩).data = (b1 ++ ⟨[q]⟩).data
  rw [String.data_append]
  apply stripL_eq_self_of
  · intro c hc
    cases hb : b1.data with
    | nil => rw [hb] at hh; simp at hh
    | cons a as =>
      rw [hb] at hh hc
      simp only [List.cons_append, List.head?_cons, Option.some_inj] at hh hc
      rw [← hc, hh]
      exact hh2
  · intro c hc
    rw [show (⟨[q]⟩ : String).data = [q] from rfl, List.getLast?_concat] at hc
    simp only [Option.some_inj] at hc
    rw [← hc]
    exact hqw

theorem base_of_append_char (b1 : String) (q : Char) (c0 cL : Char)
    (hh : b1.data.head? = some c0) (hh2 : isPyWs c0 = false)
    (hl : b1.data.getLast? = some cL) (hl2 : isPyWs cL = false)
    (hl3 : isEndPunct cL = false) (hqp : isEndPunct q = true) :
    pyStrip ⟨dropTrailWhile isEndPunct (b1 ++ ⟨[q]⟩).data⟩ = b1 := by
  apply String.ext
  show stripL (dropTrailWhile isEndPunct (b1 ++ ⟨[q]⟩).data) = b1.data
  rw [String.data_append, show (⟨[q]⟩ : String).data = [q] from rfl,
    dropTrailWhile_append_singleton, if_pos hqp,
    dropTrailWhile_eq_self_of_getLast isEndPunct b1.data cL hl hl3]
  apply stripL_eq_self_of
  · intro c hc
    rw [hh] at hc
    simp only [Option.some_inj] at hc
    rw [← hc]
    exact hh2
  · intro c hc
    rw [hl] at hc
    simp only [Option.some_inj] at hc
    rw [← hc]
    exact hl2

theorem hasCjk_append_char (b1 : String) (q : Char) (hq : isCjk q = false) :
    hasCjkL (b1 ++ ⟨[q]⟩).data = hasCjkL b1.data := by
  unfold hasCjkL
  rw [String.data_append, List.any_append]
  show (b1.data.any isCjk || (isCjk q || false)) = b1.data.any isCjk
  rw [hq]
  simp

/-- `base` sees the same CJK characters as the stripped text it came
from: only sentence punctuation and whitespace were removed. -/
theorem hasCjk_core (t : String) :
    hasCjkL (pyStrip ⟨dropTrailWhile isEndPunct t.data⟩).data = hasCjkL t.data := by
  unfold hasCjkL
  show (stripL (dropTrailWhile isEndPunct t.data)).any isCjk = t.data.any isCjk
  rw [any_stripL_eq isCjk isPyWs_not_cjk,
    any_dropTrailWhile_eq isCjk isEndPunct isEndPunct_not_cjk]

/-! ## C4 groundwork: the tone-repair output stays free of CJK–Latin
adjacencies -/

theorem chain'_front {R : Char → Char → Prop} {l m : List Char}
    (h : List.Chain' R m) (hp : l <+: m) : List.Chain' R l := by
  have h1 : List.Chain' (flip R) m.reverse :=
    List.chain'_reverse.mp (by rw [List.reverse_reverse]; exact h)
  have h2 : l.reverse <:+ m.reverse := by
    rw [List.reverse_suffix]
    exact hp
  have h3 := List.Chain'.suffix h1 h2
  have h4 := List.chain'_reverse.mpr h3
  rwa [List.reverse_reverse] at h4

theorem pairFree_stripL (p q : Char → Bool) (l : List Char)
    (h : PairFree p q l) : PairFree p q (stripL l) := by
  unfold stripL
  have h1 : PairFree p q (l.dropWhile isPyWs) :=
    List.Chain'.suffix h (List.dropWhile_suffix isPyWs)
  exact chain'_front h1 (dropTrailWhile_front isPyWs _)

theorem pairFree_dropTrail (p q r : Char → Bool) (l : List Char)
    (h : PairFree p q l) : PairFree p q (dropTrailWhile r l) :=
  chain'_front h (dropTrailWhile_front r l)

theorem pairFree_append_char (p q : Char → Bool) (l : List Char) (c : Char)
    (hqc : q c = false) (h : PairFree p q l) : PairFree p q (l ++ [c]) := by
  rw [PairFree, List.chain'_append]
  refine ⟨h, List.chain'_singleton c, ?_⟩
  intro x _ y hy hw
  simp only [List.head?_cons, Option.mem_def, Option.some_inj] at hy
  subst hy
  rw [hqc] at hw
  simp at hw

theorem pairFree_comma (p q : Char → Bool) (z : String)
    (hpc : p '，' = false) (hqc : q '，' = false)
    (h : PairFree p q z.data) : PairFree p q (maybeInsertCnComma z).data := by
  rcases maybeInsertCnComma_shape z with he | ⟨i, _, _, _, hdata⟩
  · rw [he]; exact h
  · rw [hdata, PairFree, List.chain'_append]
    refine ⟨chain'_front h ⟨z.data.drop i, List.take_append_drop i z.data⟩,
      List.chain'_cons'.mpr ⟨?_, List.Chain'.suffix h (List.drop_suffix i z.data)⟩, ?_⟩
    · intro b _ hw
      rw [hpc] at hw
      simp at hw
    · intro x _ y hy hw
      simp only [List.head?_cons, Option.mem_def, Option.some_inj] at hy
      subst hy
      rw [hqc] at hw
      simp at hw

set_option maxHeartbeats 1000000 in
/-- Every branch of `_apply_tone_punctuation` produces text built from an
infix of the input, a neutral `，` insertion, and a neutral appended
terminal — so CJK–Latin adjacency-freeness survives it. -/
theorem pairFree_applyTone (p q : Char → Bool) (y : String)
    (hp1 : p ' ' = false) (hq1 : q ' ' = false)
    (hpn : p '，' = false ∧ p '？' = false ∧ p '?' = false ∧
      p '。' = false ∧ p '.' = false)
    (hqn : q '，' = false ∧ q '？' = false ∧ q '?' = false ∧
      q '。' = false ∧ q '.' = false)
    (h : PairFree p q y.data) : PairFree p q (applyTonePunctuation y).data := by
  have hstrip : PairFree p q (pyStrip y).data := pairFree_stripL p q y.data h
  have hbase : PairFree p q
      (pyStrip ⟨dropTrailWhile isEndPunct (pyStrip y).data⟩).data :=
    pairFree_stripL p q _ (pairFree_dropTrail p q isEndPunct _ hstrip)
  have hb1 : PairFree p q
      (maybeInsertCnComma
        (pyStrip ⟨dropTrailWhile isEndPunct (pyStrip y).data⟩)).data :=
    pairFree_comma p q _ hpn.1 hqn.1 hbase
  unfold applyTonePunctuation
  by_cases h0 : pyStrip y = ""
  · rw [if_pos h0]
    rw [h0]
    exact List.chain'_nil
  · rw [if_neg h0]
    by_cases h1 : pyStrip ⟨dropTrailWhile isEndPunct (pyStrip y).data⟩ = ""
    · rw [if_pos h1]
      exact hstrip
    · rw [if_neg h1]
      by_cases h2 : looksLikeQuestion
          (maybeInsertCnComma
            (pyStrip ⟨dropTrailWhile isEndPunct (pyStrip y).data⟩)) = true
      · rw [if_pos h2]
        by_cases h3 : hasCjkL (pyStrip y).data = true
        · rw [if_pos h3]
          rw [String.data_append]
          exact pairFree_append_char p q _ '？' hqn.2.1 hb1
        · rw [if_neg h3]
          rw [String.data_append]
          exact pairFree_append_char p q _ '?' hqn.2.2.1 hb1
      · rw [if_neg h2]
        by_cases h4 : endsEndPunct (pyStrip y) = true
        · rw [if_pos h4]
          by_cases h5 : hasCjkL (pyStrip y).data = true ∧
              endsWithDot (pyStrip y) = true
          · rw [if_pos h5]
            rw [String.data_append]
            exact pairFree_append_char p q _ '。' hqn.2.2.2.1 hb1
          · rw [if_neg h5]
            exact hstrip
        · rw [if_neg h4]
          by_cases h3 : hasCjkL (pyStrip y).data = true
          · rw [if_pos h3]
            rw [String.data_append]
            exact pairFree_append_char p q _ '。' hqn.2.2.2.1 hb1
          · rw [if_neg h3]
            rw [String.data_append]
            exact pairFree_append_char p q _ '.' hqn.2.2.2.2 hb1

/-! ## C4: the tone-repair pass on its own output -/

theorem pyStrip_idem (s : String) : pyStrip (pyStrip s) = pyStrip s :=
  String.ext (stripL_idem s.data)

/-- `_apply_tone_punctuation` only ever looks at the stripped text. -/
theorem applyTone_strip (z : String) :
    applyTonePunctuation (pyStrip z) = applyTonePunctuation z := by
  unfold applyTonePunctuation
  rw [pyStrip_idem]

theorem endsEndPunct_of_getLast (s : String) (c : Char)
    (h : s.data.getLast? = some c) : endsEndPunct s = isEndPunct c := by
  unfold endsEndPunct
  rw [← List.head?_reverse] at h
  cases hr : s.data.reverse with
  | nil =>
    rw [hr] at h
    simp at h
  | cons a as =>
    rw [hr] at h
    simp only [List.head?_cons, Option.some_inj] at h
    subst h
    rfl

/-- The whole second application of `_apply_tone_punctuation` to an
output of the shape `maybeInsertCnComma base0 ++ [q]` (a non-empty,
whitespace-clean `base0` not ending in sentence punctuation, with `q` a
sentence-punctuation terminal), reduced to a dispatch over `base0`. -/
theorem applyTone_on_append (base0 : String) (q : Char) (c0 cL : Char)
    (hh : base0.data.head? = some c0) (hh2 : isPyWs c0 = false)
    (hl : base0.data.getLast? = some cL) (hl2 : isPyWs cL = false)
    (hl3 : isEndPunct cL = false)
    (hqw : isPyWs q = false) (hqp : isEndPunct q = true) (hqc : isCjk q = false) :
    applyTonePunctuation (maybeInsertCnComma base0 ++ ⟨[q]⟩) =
      (if looksLikeQuestion (maybeInsertCnComma base0) = true then
        maybeInsertCnComma base0 ++
          (if hasCjkL base0.data = true then "？" else "?")
      else if hasCjkL base0.data = true ∧ decide (q = '.') = true then
        maybeInsertCnComma base0 ++ "。"
      else maybeInsertCnComma base0 ++ ⟨[q]⟩) := by
  have hhb : (maybeInsertCnComma base0).data.head? = some c0 := by
    rw [maybeInsertCnComma_head?]; exact hh
  have hlb : (maybeInsertCnComma base0).data.getLast? = some cL := by
    rw [maybeInsertCnComma_getLast?]; exact hl
  have hb1ne : ¬ maybeInsertCnComma base0 = "" := by
    rw [string_eq_empty_iff]
    intro hc
    rw [hc] at hhb
    simp at hhb
  simp only [applyTonePunctuation]
  rw [pyStrip_append_char (maybeInsertCnComma base0) q c0 hhb hh2 hqw,
    if_neg (append_char_ne_empty (maybeInsertCnComma base0) q),
    base_of_append_char (maybeInsertCnComma base0) q c0 cL hhb hh2 hlb hl2 hl3 hqp,
    if_neg hb1ne, maybeInsertCnComma_idem base0,
    hasCjk_append_char (maybeInsertCnComma base0) q hqc,
    maybeInsertCnComma_hasCjk base0,
    endsEndPunct_append_char (maybeInsertCnComma base0) q,
    endsWithDot_append_char (maybeInsertCnComma base0) q,
    if_pos hqp]

/-- The tone-repair pass is idempotent on every input whose text, after
removing the trailing sentence-punctuation run and surrounding
whitespace, does not still end with sentence-ending punctuation. -/
theorem applyTone_idem_of_cleanTail (y : String)
    (hgood : punctStrippedCore y = "" ∨
      endsEndPunct (punctStrippedCore y) = false) :
    applyTonePunctuation (applyTonePunctuation y) = applyTonePunctuation y := by
  by_cases h0 : pyStrip y = ""
  · have hTy : applyTonePunctuation y = pyStrip y := by
      simp only [applyTonePunctuation]
      rw [if_pos h0]
    rw [hTy, applyTone_strip, hTy]
  · by_cases h1 : pyStrip ⟨dropTrailWhile isEndPunct (pyStrip y).data⟩ = ""
    · have hTy : applyTonePunctuation y = pyStrip y := by
        simp only [applyTonePunctuation]
        rw [if_neg h0, if_pos h1]
      rw [hTy, applyTone_strip, hTy]
    · have hgood2 : endsEndPunct
          (pyStrip ⟨dropTrailWhile isEndPunct (pyStrip y).data⟩) = false := by
        unfold punctStrippedCore at hgood
        rcases hgood with hg | hg
        · exact absurd hg h1
        · exact hg
      obtain ⟨c0, hc0, hc0w⟩ : ∃ c0,
          (pyStrip ⟨dropTrailWhile isEndPunct (pyStrip y).data⟩).data.head? =
            some c0 ∧ isPyWs c0 = false := by
        cases hh : (pyStrip ⟨dropTrailWhile isEndPunct (pyStrip y).data⟩).data.head? with
        | none =>
          exfalso
          rw [List.head?_eq_none_iff] at hh
          exact h1 ((string_eq_empty_iff _).mpr hh)
        | some c =>
          exact ⟨c, rfl,
            stripL_head_false (⟨dropTrailWhile isEndPunct (pyStrip y).data⟩ : String).data c hh⟩
      obtain ⟨cL, hcL, hcLw, hcLp⟩ : ∃ cL,
          (pyStrip ⟨dropTrailWhile isEndPunct (pyStrip y).data⟩).data.getLast? =
            some cL ∧ isPyWs cL = false ∧ isEndPunct cL = false := by
        cases hh : (pyStrip ⟨dropTrailWhile isEndPunct (pyStrip y).data⟩).data.getLast? with
        | none =>
          exfalso
          rw [List.getLast?_eq_none_iff] at hh
          exact h1 ((string_eq_empty_iff _).mpr hh)
        | some c =>
          refine ⟨c, rfl,
            stripL_getLast_false (⟨dropTrailWhile isEndPunct (pyStrip y).data⟩ : String).data c hh, ?_⟩
          rw [endsEndPunct_of_getLast _ c hh] at hgood2
          exact hgood2
      by_cases hq : looksLikeQuestion
          (maybeInsertCnComma
            (pyStrip ⟨dropTrailWhile isEndPunct (pyStrip y).data⟩)) = true
      · by_cases hcjk : hasCjkL (pyStrip y).data = true
        · have hTy : applyTonePunctuation y =
              maybeInsertCnComma
                (pyStrip ⟨dropTrailWhile isEndPunct (pyStrip y).data⟩) ++ ⟨['？']⟩ := by
            simp only [applyTonePunctuation]
            rw [if_neg h0, if_neg h1, if_pos hq, if_pos hcjk]
          rw [hTy, applyTone_on_append _ '？' c0 cL hc0 hc0w hcL hcLw hcLp
            (by decide) (by decide) (by decide), if_pos hq,
            hasCjk_core (pyStrip y), if_pos hcjk]
        · have hTy : applyTonePunctuation y =
              maybeInsertCnComma
                (pyStrip ⟨dropTrailWhile isEndPunct (pyStrip y).data⟩) ++ ⟨['?']⟩ := by
            simp only [applyTonePunctuation]
            rw [if_neg h0, if_neg h1, if_pos hq, if_neg hcjk]
          rw [hTy, applyTone_on_append _ '?' c0 cL hc0 hc0w hcL hcLw hcLp
            (by decide) (by decide) (by decide), if_pos hq,
            hasCjk_core (pyStrip y), if_neg hcjk]
      · by_cases hep : endsEndPunct (pyStrip y) = true
        · by_cases hcd : hasCjkL (pyStrip y).data = true ∧
              endsWithDot (pyStrip y) = true
          · have hTy : applyTonePunctuation y =
                maybeInsertCnComma
                  (pyStrip ⟨dropTrailWhile isEndPunct (pyStrip y).data⟩) ++ ⟨['。']⟩ := by
              simp only [applyTonePunctuation]
              rw [if_neg h0, if_neg h1, if_neg hq, if_pos hep, if_pos hcd]
            rw [hTy, applyTone_on_append _ '。' c0 cL hc0 hc0w hcL hcLw hcLp
              (by decide) (by decide) (by decide), if_neg hq,
              if_neg (fun hcc => absurd hcc.2 (by decide))]
          · have hTy : applyTonePunctuation y = pyStrip y := by
              simp only [applyTonePunctuation]
              rw [if_neg h0, if_neg h1, if_neg hq, if_pos hep, if_neg hcd]
            rw [hTy, applyTone_strip, hTy]
        · by_cases hcjk : hasCjkL (pyStrip y).data = true
          · have hTy : applyTonePunctuation y =
                maybeInsertCnComma
                  (pyStrip ⟨dropTrailWhile isEndPunct (pyStrip y).data⟩) ++ ⟨['。']⟩ := by
              simp only [applyTonePunctuation]
              rw [if_neg h0, if_neg h1, if_neg hq, if_neg hep, if_pos hcjk]
            rw [hTy, applyTone_on_append _ '。' c0 cL hc0 hc0w hcL hcLw hcLp
              (by decide) (by decide) (by decide), if_neg hq,
              if_neg (fun hcc => absurd hcc.2 (by decide))]
          · have hTy : applyTonePunctuation y =
                maybeInsertCnComma
                  (pyStrip ⟨dropTrailWhile isEndPunct (pyStrip y).data⟩) ++ ⟨['.']⟩ := by
              simp only [applyTonePunctuation]
              rw [if_neg h0, if_neg h1, if_neg hq, if_neg hep, if_neg hcjk]
            rw [hTy, applyTone_on_append _ '.' c0 cL hc0 hc0w hcL hcLw hcLp
              (by decide) (by decide) (by decide), if_neg hq,
              if_neg (fun hcc => by
                rw [hasCjk_core (pyStrip y)] at hcc
                exact hcjk hcc.1)]

/-- Tone repair never creates a CJK–Latin adjacency, so a second spacing
pass over its output is the identity. -/
theorem spacing_fixes_tone_output (x : String) :
    normalizeMixedSpacing (applyTonePunctuation (normalizeMixedSpacing x)) =
      applyTonePunctuation (normalizeMixedSpacing x) :=
  spacing_eq_self_of_pairFree _
    (pairFree_applyTone isCjk isAsciiAlnum _ (by decide) (by decide)
      ⟨by decide, by decide, by decide, by decide, by decide⟩
      ⟨by decide, by decide, by decide, by decide, by decide⟩
      (pairFree_spacing_cjkAlnum x))
    (pairFree_applyTone isAsciiAlnum isCjk _ (by decide) (by decide)
      ⟨by decide, by decide, by decide, by decide, by decide⟩
      ⟨by decide, by decide, by decide, by decide, by decide⟩
      (pairFree_spacing_alnumCjk x))

/-- C4 counterexample: the finalized-text normalizer is not idempotent.
For `"why. ."` the trailing-punctuation strip removes only the final
period and the left-over `"why."` is classified as a question, so one
application yields `"why.?"`; the second application strips the now
contiguous `".?"` run and yields `"why?"`. -/
theorem normalizer_not_idempotent :
    normalizeFinalText "why. ." = "why.?" ∧
    normalizeFinalText (normalizeFinalText "why. .") = "why?" ∧
    normalizeFinalText (normalizeFinalText "why. .") ≠
      normalizeFinalText "why. ." :=
  ⟨by decide, by decide, by decide⟩

/-- C4 (amended): the normalizer (mixed-language spacing followed by
tone/punctuation repair with its comma-insertion pass) is idempotent on
every input whose spaced text, after removing the trailing
sentence-punctuation run and the whitespace around it, is empty or does
not still end with a sentence-ending punctuation character — i.e. on all
inputs except those with a whitespace-separated trailing punctuation run
such as `"why. ."`. -/
theorem normalizer_idempotent_on_clean_tail (x : String)
    (hgood : punctStrippedCore (normalizeMixedSpacing x) = "" ∨
      endsEndPunct (punctStrippedCore (normalizeMixedSpacing x)) = false) :
    normalizeFinalText (normalizeFinalText x) = normalizeFinalText x := by
  unfold normalizeFinalText
  rw [spacing_fixes_tone_output x]
  exact applyTone_idem_of_cleanTail (normalizeMixedSpacing x) hgood

/-- Witness for C4's amended theorem at the concrete input `"hello"`
(tail is clean; the normalizer appends one period and then fixes). -/
theorem normalizer_idempotent_witness :
    (punctStrippedCore (normalizeMixedSpacing "hello") = "" ∨
      endsEndPunct (punctStrippedCore (normalizeMixedSpacing "hello")) = false) ∧
    normalizeFinalText (normalizeFinalText "hello") = normalizeFinalText "hello" :=
  ⟨Or.inr (by decide),
    normalizer_idempotent_on_clean_tail "hello" (Or.inr (by decide))⟩

end JSpeak
